import Mathlib

/-!
Shallow embedding of `src/graph.py` (treewidth-algos).

The Python module implements a mutable 1-indexed undirected graph
(`UndirectedGraph`) with an adjacency dictionary of sets (`self.edges`),
a vertex set (`self.vertices`), a set of canonical `(min, max)` edge pairs
(`self.edge_list`) and a stored vertex count (`self.size`), plus a broken
`TreeDecomposition` subclass.

Modelling conventions:
* Python `int` vertex ids are embedded as `Nat` (all ids occurring in the
  program are nonnegative; no arithmetic that could go negative is performed
  on ids).
* The adjacency dict `self.edges` is embedded as an association list
  `List (Nat × Finset Nat)`; `dict` key deletion is list filtering, and
  `self.edges[u]` is `alookup`-then-default (accesses in the source only
  happen at keys that are present whenever the representation invariant of
  the class holds).
* Python `set`s of pairs (`edge_list`, matchings) are embedded as duplicate
  free lists so that the iteration order used by the source loops is
  explicit; `set`s of ints are embedded as `Finset Nat` and are iterated in
  increasing order (CPython set iteration order is arbitrary; every theorem
  below is independent of the chosen order).
* `assert` failures and the `TypeError` raised by `TreeDecomposition`'s
  constructor are embedded as `Except PyErr`.
-/

set_option maxHeartbeats 1000000
set_option linter.unusedVariables false

/-- Errors raised by the Python source: the `assert size >= 1` in
`__init__` (`InvalidSize`), the vertex-membership asserts (`InvalidVertex`),
the edge-membership asserts in `remove_edge` (`EdgeNotFound`), and the
`TypeError` raised by `TreeDecomposition.__init__`. -/
inductive PyErr where
  | invalidSize
  | invalidVertex
  | edgeNotFound
  | typeError
deriving DecidableEq, Repr

instance {ε α : Type} [DecidableEq ε] [DecidableEq α] : DecidableEq (Except ε α) :=
  fun a b =>
    match a, b with
    | Except.ok x, Except.ok y => decidable_of_iff (x = y) (by simp)
    | Except.error x, Except.error y => decidable_of_iff (x = y) (by simp)
    | Except.ok x, Except.error y => isFalse (fun h => Except.noConfusion h)
    | Except.error x, Except.ok y => isFalse (fun h => Except.noConfusion h)

/-- List membership decided by structural recursion, so that it reduces
inside the kernel (the `LawfulBEq`-based core instance gets stuck on
`Eq.rec`). -/
def decMemList {α : Type} [DecidableEq α] : (a : α) → (l : List α) → Decidable (a ∈ l)
  | _, [] => isFalse (fun h => (List.not_mem_nil _) h)
  | a, b :: l =>
    if h : b = a then isTrue (h ▸ List.mem_cons_self b l)
    else
      match decMemList a l with
      | isTrue ht => isTrue (List.mem_cons_of_mem b ht)
      | isFalse hf => isFalse (fun hc => (List.mem_cons.mp hc).elim
          (fun he => h he.symm) hf)

instance (priority := 2000) {α : Type} [DecidableEq α] (a : α) (l : List α) :
    Decidable (a ∈ l) := decMemList a l

/-- State of a Python `UndirectedGraph` object: `self.size`,
`self.vertices`, the adjacency dict `self.edges`, and `self.edge_list`. -/
structure UndirectedGraph where
  size : Nat
  vertices : Finset Nat
  edges : List (Nat × Finset Nat)
  edge_list : List (Nat × Nat)

instance : DecidableEq UndirectedGraph := fun a b =>
  decidable_of_iff
    (a.size = b.size ∧ a.vertices = b.vertices ∧ a.edges = b.edges
      ∧ a.edge_list = b.edge_list)
    (by
      constructor
      · intro ⟨h1, h2, h3, h4⟩
        cases a
        cases b
        simp only at h1 h2 h3 h4
        rw [h1, h2, h3, h4]
      · intro h
        rw [h]
        exact ⟨rfl, rfl, rfl, rfl⟩)

/-- First-match association-list lookup: the embedding of a Python dict
access `d[u]` (dict keys are unique, so first match is the match). -/
def alookup {β : Type} (l : List (Nat × β)) (u : Nat) : Option β :=
  match l with
  | [] => none
  | e :: es => if e.1 = u then some e.2 else alookup es u

/-- The fixed iteration order chosen for embedded Python `set`s of ints:
ascending. Defined through `List.insertionSort` so that it evaluates inside
the kernel. -/
def sortedList (s : Finset Nat) : List Nat :=
  Quot.liftOn s.val (fun l => l.insertionSort (· ≤ ·))
    (fun a b h => List.eq_of_perm_of_sorted
      ((List.perm_insertionSort _ a).trans ((Quotient.exact (Quot.sound h)).trans
        (List.perm_insertionSort _ b).symm))
      (List.sorted_insertionSort _ a) (List.sorted_insertionSort _ b))

theorem mem_sortedList (s : Finset Nat) (x : Nat) : x ∈ sortedList s ↔ x ∈ s := by
  show x ∈ sortedList s ↔ x ∈ s.val
  unfold sortedList
  induction s.val using Quotient.inductionOn with
  | h l =>
    show x ∈ List.insertionSort (· ≤ ·) l ↔ x ∈ (l : Multiset Nat)
    rw [List.mem_insertionSort, Multiset.mem_coe]

theorem nodup_sortedList (s : Finset Nat) : (sortedList s).Nodup := by
  have hn : s.val.Nodup := s.nodup
  revert hn
  unfold sortedList
  induction s.val using Quotient.inductionOn with
  | h l =>
    intro hn
    exact ((List.perm_insertionSort _ l).nodup_iff).mpr (Multiset.coe_nodup.mp hn)

namespace UndirectedGraph

/-- `self.edges[u]`, defaulting to `∅` when the key is absent (the source
only reads keys that are present in every state its methods produce). -/
def adj (g : UndirectedGraph) (u : Nat) : Finset Nat :=
  (alookup g.edges u).getD ∅

/-- `UndirectedGraph.__init__(size)`: asserts `size >= 1`, sets
`self.size = size`, `self.vertices = set(range(1, size+1))`,
`self.edges = {i: set() for i in range(1, size+1)}`, `self.edge_list = set()`. -/
def init (size : Nat) : Except PyErr UndirectedGraph :=
  if 1 ≤ size then
    Except.ok
      { size := size
        vertices := Finset.Icc 1 size
        edges := (List.range size).map (fun i => (i + 1, ∅))
        edge_list := [] }
  else Except.error PyErr.invalidSize

/-- `self.edges[k].add(x)` as a dict-of-sets update. -/
def adjInsert (l : List (Nat × Finset Nat)) (k x : Nat) : List (Nat × Finset Nat) :=
  l.map (fun e => if e.1 = k then (e.1, insert x e.2) else e)

/-- `self.edges[k].remove(x)` as a dict-of-sets update (`KeyError` on a
missing element cannot fire in the states the source reaches, so removal of
an absent element is embedded as a no-op). -/
def adjErase (l : List (Nat × Finset Nat)) (k x : Nat) : List (Nat × Finset Nat) :=
  l.map (fun e => if e.1 = k then (e.1, e.2.erase x) else e)

/-- Body of `add_edge` after the assert and the self-loop early return:
`self.edges[u].add(v)`, `self.edges[v].add(u)`, swap to `(min, max)`,
`self.edge_list.add(pair)` (a set add, hence appended only when new). -/
def addEdgeCore (g : UndirectedGraph) (u v : Nat) : UndirectedGraph :=
  { g with
    edges := adjInsert (adjInsert g.edges u v) v u
    edge_list :=
      if (min u v, max u v) ∈ g.edge_list then g.edge_list
      else g.edge_list ++ [(min u v, max u v)] }

/-- `add_edge(vertex1, vertex2)`: asserts both endpoints are current
vertices (before anything else), then returns unchanged on a self-loop,
otherwise records the edge in both adjacency sets and the edge list. -/
def add_edge (g : UndirectedGraph) (u v : Nat) : Except PyErr UndirectedGraph :=
  if u ∈ g.vertices ∧ v ∈ g.vertices then
    if u = v then Except.ok g else Except.ok (g.addEdgeCore u v)
  else Except.error PyErr.invalidVertex

/-- Greedy loop of `maximal_matching`: scan the edge list, keep an edge when
neither endpoint has been `seen`, then mark both endpoints. -/
def greedyMatch : List (Nat × Nat) → Finset Nat → List (Nat × Nat)
  | [], _ => []
  | (u, v) :: rest, seen =>
    if u ∉ seen ∧ v ∉ seen then
      (u, v) :: greedyMatch rest (insert u (insert v seen))
    else greedyMatch rest seen

/-- `maximal_matching()`: greedy 2-approximation scan over `self.edge_list`. -/
def maximal_matching (g : UndirectedGraph) : List (Nat × Nat) :=
  greedyMatch g.edge_list ∅

/-- `i in mapping` for the dict `mapping = {u: v for u, v in matching}`. -/
def matchKey (matching : List (Nat × Nat)) (x : Nat) : Bool :=
  matching.any (fun p => p.1 = x)

/-- `mapping[x]` for the dict `mapping = {u: v for u, v in matching}`
(first match; valid matchings have pairwise distinct first components). -/
def matchVal (matching : List (Nat × Nat)) (x : Nat) : Nat :=
  ((matching.find? (fun p => p.1 = x)).map Prod.snd).getD 0

/-- The numbering loop pattern `for x in l: d[x] = curr; curr += 1`,
returning the association list it builds. -/
def assignFrom (curr : Nat) : List Nat → List (Nat × Nat)
  | [] => []
  | x :: xs => (x, curr) :: assignFrom (curr + 1) xs

/-- The `new_edges` dict of `contract_graph`: dense ids `1, 2, ...` assigned
to the vertices that are not keys of `mapping`, in iteration order. -/
def newIds (g : UndirectedGraph) (matching : List (Nat × Nat)) : List (Nat × Nat) :=
  assignFrom 1 ((sortedList g.vertices).filter (fun i => ¬ matchKey matching i))

/-- `new_edges[x]` in `contract_graph`. -/
def newIdOf (g : UndirectedGraph) (matching : List (Nat × Nat)) (x : Nat) : Nat :=
  (alookup (newIds g matching) x).getD 0

/-- The id every old vertex ends up with in `contract_graph`:
`new_edges[mapping[x]]` when `x` is a key of `mapping`, else `new_edges[x]`.
This is the old-id to new-id map the spec talks about; `contract_graph`
computes it but returns only the contracted graph. -/
def newIdFun (g : UndirectedGraph) (matching : List (Nat × Nat)) (x : Nat) : Nat :=
  if matchKey matching x then newIdOf g matching (matchVal matching x)
  else newIdOf g matching x

/-- `contract_graph(matching)`: build `UndirectedGraph(self.size - len(matching))`,
then for every adjacency entry and every neighbor, skip the contracted pair
itself and add the renumbered edge (self-loops are dropped by `add_edge`). -/
def contract_graph (g : UndirectedGraph) (matching : List (Nat × Nat)) :
    Except PyErr UndirectedGraph := do
  let h ← init (g.size - matching.length)
  g.edges.foldlM
    (fun acc entry =>
      (sortedList entry.2).foldlM
        (fun acc2 neigh =>
          if (entry.1, neigh) ∈ matching then pure acc2
          else add_edge acc2 (newIdFun g matching entry.1) (newIdFun g matching neigh))
        acc)
    h

/-- The simplicial test of `get_simplicial_vertices`:
`all(v in self.edges[w] for v in neighbors for w in neighbors if v != w)`. -/
def simplicialAt (g : UndirectedGraph) (u : Nat) : Prop :=
  ∀ v ∈ g.adj u, ∀ w ∈ g.adj u, v ≠ w → v ∈ g.adj w

instance (g : UndirectedGraph) (u : Nat) : Decidable (simplicialAt g u) := by
  unfold simplicialAt; infer_instance

/-- `get_simplicial_vertices()`: collect the vertices whose neighbors form a
clique, in vertex iteration order. -/
def get_simplicial_vertices (g : UndirectedGraph) : List Nat :=
  (sortedList g.vertices).filter (fun u => decide (simplicialAt g u))

/-- `is_simplicial()`. -/
def is_simplicial (g : UndirectedGraph) : Bool :=
  (g.get_simplicial_vertices).length = g.size

/-- The `mapping` dict of `subgraph`: `curr = 1` ids assigned to the members
of `nodes` in iteration order. -/
def subMap (nodes : Finset Nat) (x : Nat) : Nat :=
  (alookup (assignFrom 1 (sortedList nodes)) x).getD 0

/-- `subgraph(nodes)`: build `UndirectedGraph(len(nodes))`, then add every
edge of the induced subgraph under the dense renumbering `mapping`. -/
def subgraph (g : UndirectedGraph) (nodes : Finset Nat) : Except PyErr UndirectedGraph := do
  let sub ← init nodes.card
  (sortedList nodes).foldlM
    (fun acc node =>
      (sortedList (g.adj node)).foldlM
        (fun acc2 neighbor =>
          if neighbor ∉ nodes then pure acc2
          else add_edge acc2 (subMap nodes node) (subMap nodes neighbor))
        acc)
    sub

/-- `copy()`: build `UndirectedGraph(self.size)` and re-add every edge of
`self.edge_list`. -/
def copy (g : UndirectedGraph) : Except PyErr UndirectedGraph := do
  let h ← init g.size
  g.edge_list.foldlM (fun acc p => add_edge acc p.1 p.2) h

/-- `remove_edge(u, v)`: asserts both endpoints are vertices, asserts the
edge is present in both adjacency sets, asserts the canonical pair is in the
edge list, then removes all three occurrences. -/
def remove_edge (g : UndirectedGraph) (u v : Nat) : Except PyErr UndirectedGraph :=
  if u ∈ g.vertices ∧ v ∈ g.vertices then
    if u ∈ g.adj v ∧ v ∈ g.adj u then
      if (min u v, max u v) ∈ g.edge_list then
        Except.ok
          { g with
            edges := adjErase (adjErase g.edges u v) v u
            edge_list := g.edge_list.erase (min u v, max u v) }
      else Except.error PyErr.edgeNotFound
    else Except.error PyErr.edgeNotFound
  else Except.error PyErr.invalidVertex

/-- `remove_node(node)`: asserts the vertex is present; for every neighbor,
removes `node` from that neighbor's adjacency set and removes the canonical
pair from the edge list; then deletes the `node` entry of the adjacency
dict, removes `node` from the vertex set and decrements `size`. -/
def remove_node (g : UndirectedGraph) (node : Nat) : Except PyErr UndirectedGraph :=
  if node ∈ g.vertices then
    Except.ok
      { size := g.size - 1
        vertices := g.vertices.erase node
        edges :=
          ((sortedList (g.adj node)).foldl
            (fun l nb => adjErase l nb node) g.edges).filter (fun e => e.1 ≠ node)
        edge_list :=
          (sortedList (g.adj node)).foldl
            (fun el nb => el.erase (min node nb, max node nb)) g.edge_list }
  else Except.error PyErr.invalidVertex

/-- `vertex_degrees()`. -/
def vertex_degrees (g : UndirectedGraph) : List (Nat × Nat) :=
  (sortedList g.vertices).map (fun v => (v, (g.adj v).card))

end UndirectedGraph

/-- State of a Python `TreeDecomposition` object (a subclass of
`UndirectedGraph` with a `bags` dict and a `width`). -/
structure TreeDecomposition where
  graph : UndirectedGraph
  bags : List (Nat × Finset Nat)
  width : Nat
deriving DecidableEq

/-- `TreeDecomposition.__init__(size)` executes `super.__init__(self, size)`
where `super` is the builtin type itself, not a `super()` proxy: CPython
raises `TypeError` (the `__init__` slot of `super` rejects a
`TreeDecomposition` instance) before any field is assigned, for every
`size`. The constructor therefore never produces a value. -/
def TreeDecomposition.init (size : Nat) : Except PyErr TreeDecomposition :=
  Except.error PyErr.typeError

/-- `TreeDecomposition.add_to_bag` (only reachable on a constructed
instance, which `TreeDecomposition.init` never produces). -/
def TreeDecomposition.add_to_bag (t : TreeDecomposition) (vertex1 vertex2 : Nat) :
    Except PyErr TreeDecomposition :=
  if vertex1 ≤ t.graph.size ∧ vertex2 ≤ t.graph.size then
    let b := (alookup t.bags vertex1).getD ∅
    let b2 := insert vertex2 b
    Except.ok
      { t with
        bags := t.bags.map (fun e => if e.1 = vertex1 then (e.1, b2) else e)
        width := if t.width < b2.card - 1 then b2.card - 1 else t.width }
  else Except.error PyErr.invalidVertex

namespace UndirectedGraph

/-- Keys of the adjacency dict, as a finite set. -/
def keysF (g : UndirectedGraph) : Finset Nat := (g.edges.map Prod.fst).toFinset

/-- Representation invariant of the Python class: the stored size counts the
vertices, the adjacency dict is keyed exactly by the vertex set, adjacency
is symmetric, self-loop free and closed over the vertex set, and the
canonical edge list records exactly the adjacency relation, without
duplicates. -/
def WellFormed (g : UndirectedGraph) : Prop :=
  g.size = g.vertices.card ∧
  (g.edges.map Prod.fst).Nodup ∧
  g.keysF = g.vertices ∧
  (∀ u ∈ g.vertices, g.adj u ⊆ g.vertices) ∧
  (∀ u ∈ g.vertices, u ∉ g.adj u) ∧
  (∀ u ∈ g.vertices, ∀ v ∈ g.adj u, u ∈ g.adj v) ∧
  (∀ u ∈ g.vertices, ∀ v ∈ g.adj u, (min u v, max u v) ∈ g.edge_list) ∧
  (∀ p ∈ g.edge_list, p.1 < p.2 ∧ p.1 ∈ g.vertices ∧ p.2 ∈ g.adj p.1) ∧
  g.edge_list.Nodup

instance (g : UndirectedGraph) : Decidable (WellFormed g) := by
  unfold WellFormed; infer_instance

/-- Graph states reachable through the public mutating interface:
construction, `add_edge`, `remove_edge`, `remove_node`. -/
inductive Reachable : UndirectedGraph → Prop
  | init (n : Nat) (g : UndirectedGraph) :
      UndirectedGraph.init n = Except.ok g → Reachable g
  | add_edge (g : UndirectedGraph) (u v : Nat) (g' : UndirectedGraph) :
      Reachable g → UndirectedGraph.add_edge g u v = Except.ok g' → Reachable g'
  | remove_edge (g : UndirectedGraph) (u v : Nat) (g' : UndirectedGraph) :
      Reachable g → UndirectedGraph.remove_edge g u v = Except.ok g' → Reachable g'
  | remove_node (g : UndirectedGraph) (v : Nat) (g' : UndirectedGraph) :
      Reachable g → UndirectedGraph.remove_node g v = Except.ok g' → Reachable g'

/-- Two vertex pairs sharing no endpoint. -/
def vdisj (p q : Nat × Nat) : Prop :=
  p.1 ≠ q.1 ∧ p.1 ≠ q.2 ∧ p.2 ≠ q.1 ∧ p.2 ≠ q.2

instance (p q : Nat × Nat) : Decidable (vdisj p q) := by
  unfold vdisj; infer_instance

/-- Endpoints of a list of vertex pairs. -/
def coveredOf (l : List (Nat × Nat)) : Finset Nat :=
  l.foldr (fun p s => insert p.1 (insert p.2 s)) ∅

/-- A matching over the current edges of `g`: each pair is an existing edge
(recorded in the adjacency structure) and distinct pairs share no vertex. -/
def ValidMatching (g : UndirectedGraph) (m : List (Nat × Nat)) : Prop :=
  (∀ p ∈ m, p.1 ≠ p.2 ∧ p.2 ∈ g.adj p.1) ∧ m.Pairwise vdisj

instance (g : UndirectedGraph) (m : List (Nat × Nat)) : Decidable (ValidMatching g m) := by
  unfold ValidMatching; infer_instance

/-- One `add_edge` call on a state where its assert holds: no-op on a
self-loop, `addEdgeCore` otherwise. -/
def addEdgeStep (g : UndirectedGraph) (p : Nat × Nat) : UndirectedGraph :=
  if p.1 = p.2 then g else g.addEdgeCore p.1 p.2

/-- A sequence of successful `add_edge` calls. -/
def addEdgesT (g : UndirectedGraph) (l : List (Nat × Nat)) : UndirectedGraph :=
  l.foldl addEdgeStep g

/-- The flattened list of renumbered endpoint pairs that the nested loops of
`contract_graph` pass to `add_edge`, in order. -/
def contractPairs (g : UndirectedGraph) (matching : List (Nat × Nat)) : List (Nat × Nat) :=
  g.edges.flatMap (fun entry =>
    ((sortedList entry.2).filter (fun n => decide ((entry.1, n) ∉ matching))).map
      (fun n => (newIdFun g matching entry.1, newIdFun g matching n)))

/-- The flattened list of renumbered endpoint pairs that the nested loops of
`subgraph` pass to `add_edge`, in order. -/
def subPairs (g : UndirectedGraph) (nodes : Finset Nat) : List (Nat × Nat) :=
  (sortedList nodes).flatMap (fun node =>
    ((sortedList (g.adj node)).filter (fun nb => decide (nb ∈ nodes))).map
      (fun nb => (subMap nodes node, subMap nodes nb)))

/-- Representative vertex a vertex collapses onto in `contract_graph`:
`mapping[x]` for a key of `mapping`, `x` itself otherwise. -/
def repOf (matching : List (Nat × Nat)) (x : Nat) : Nat :=
  if matchKey matching x then matchVal matching x else x

/-- Edge list of the cycle `1 - 2 - ... - n - 1`. -/
def cycleEdges (n : Nat) : List (Nat × Nat) :=
  ((List.range (n - 1)).map (fun i => (i + 1, i + 2))) ++ [(1, n)]

/-- The cycle graph on `1..n`, built through the public interface. -/
def cycleGraph (n : Nat) : Except PyErr UndirectedGraph := do
  let g ← init n
  (cycleEdges n).foldlM (fun acc p => add_edge acc p.1 p.2) g

end UndirectedGraph

/-- Concrete triangle graph `1-2-3`, the state produced by
`UndirectedGraph(3)` followed by `add_edge(1,2)`, `add_edge(2,3)`,
`add_edge(1,3)`. -/
def wTri : UndirectedGraph :=
  { size := 3
    vertices := {1, 2, 3}
    edges := [(1, {2, 3}), (2, {1, 3}), (3, {1, 2})]
    edge_list := [(1, 2), (2, 3), (1, 3)] }

/-- Concrete path graph `1-2-3`, the state produced by `UndirectedGraph(3)`
followed by `add_edge(1,2)`, `add_edge(2,3)`. -/
def wPath3 : UndirectedGraph :=
  { size := 3
    vertices := {1, 2, 3}
    edges := [(1, {2}), (2, {1, 3}), (3, {2})]
    edge_list := [(1, 2), (2, 3)] }

/-- Concrete two-vertex graph with one edge, the state produced by
`UndirectedGraph(2)` followed by `add_edge(1,2)`. -/
def wK2 : UndirectedGraph :=
  { size := 2
    vertices := {1, 2}
    edges := [(1, {2}), (2, {1})]
    edge_list := [(1, 2)] }

/-- The state produced by `UndirectedGraph(2)`. -/
def wTwo : UndirectedGraph :=
  { size := 2, vertices := {1, 2}, edges := [(1, ∅), (2, ∅)], edge_list := [] }

/-- The state produced by `UndirectedGraph(2)` followed by `remove_node(1)`:
vertex `2` survives but the stored size drops to `1`. -/
def wOne2 : UndirectedGraph :=
  { size := 1, vertices := {2}, edges := [(2, ∅)], edge_list := [] }

/-- The state produced by `UndirectedGraph(1)`. -/
def wOneV : UndirectedGraph :=
  { size := 1, vertices := {1}, edges := [(1, ∅)], edge_list := [] }

/-- The state produced by `UndirectedGraph(1)` followed by `remove_node(1)`:
the empty graph with stored size `0`. -/
def wEmpty : UndirectedGraph :=
  { size := 0, vertices := ∅, edges := [], edge_list := [] }

/-! ### Association list lemmas -/

namespace UndirectedGraph

theorem alookup_eq_none {β : Type} (l : List (Nat × β)) (u : Nat) :
    alookup l u = none ↔ u ∉ l.map Prod.fst := by
  induction l with
  | nil => simp [alookup]
  | cons e es ih =>
    by_cases h : e.1 = u
    · simp [alookup, h]
    · simp only [alookup, if_neg h, ih, List.map_cons, List.mem_cons]
      constructor
      · intro hn
        rintro (rfl | hm)
        · exact h rfl
        · exact hn hm
      · intro hn hm
        exact hn (Or.inr hm)

theorem alookup_mem {β : Type} {l : List (Nat × β)} {u : Nat} {s : β}
    (h : alookup l u = some s) : (u, s) ∈ l := by
  induction l with
  | nil => simp [alookup] at h
  | cons e es ih =>
    by_cases he : e.1 = u
    · simp [alookup, he] at h
      subst he h
      simp
    · simp [alookup, he] at h
      simp [ih h]

theorem mem_alookup {β : Type} {l : List (Nat × β)} {u : Nat} {s : β}
    (hnd : (l.map Prod.fst).Nodup) (h : (u, s) ∈ l) : alookup l u = some s := by
  induction l with
  | nil => simp at h
  | cons e es ih =>
    simp only [List.map_cons, List.nodup_cons] at hnd
    rcases List.mem_cons.mp h with h | h
    · rw [← h]
      simp [alookup]
    · have hne : e.1 ≠ u := by
        intro he
        exact hnd.1 (by
          refine List.mem_map.mpr ?_
          exact ⟨(u, s), h, by rw [he]⟩)
      simp [alookup, hne, ih hnd.2 h]

theorem alookup_map_value {β : Type} (l : List (Nat × β)) (f : Nat → β → β) (u : Nat) :
    alookup (l.map (fun e => (e.1, f e.1 e.2))) u = (alookup l u).map (f u) := by
  induction l with
  | nil => simp [alookup]
  | cons e es ih =>
    by_cases h : e.1 = u
    · subst h; simp [alookup]
    · simp [alookup, h, ih]

theorem adjInsert_eq_map_value (l : List (Nat × Finset Nat)) (k x : Nat) :
    adjInsert l k x = l.map (fun e => (e.1, if e.1 = k then insert x e.2 else e.2)) := by
  unfold adjInsert
  congr 1
  funext e
  by_cases h : e.1 = k <;> simp [h]

theorem adjErase_eq_map_value (l : List (Nat × Finset Nat)) (k x : Nat) :
    adjErase l k x = l.map (fun e => (e.1, if e.1 = k then e.2.erase x else e.2)) := by
  unfold adjErase
  congr 1
  funext e
  by_cases h : e.1 = k <;> simp [h]

theorem alookup_adjInsert (l : List (Nat × Finset Nat)) (k x u : Nat) :
    alookup (adjInsert l k x) u
      = (alookup l u).map (fun s => if u = k then insert x s else s) := by
  rw [adjInsert_eq_map_value]
  rw [alookup_map_value l (fun a s => if a = k then insert x s else s) u]

theorem alookup_adjErase (l : List (Nat × Finset Nat)) (k x u : Nat) :
    alookup (adjErase l k x) u
      = (alookup l u).map (fun s => if u = k then s.erase x else s) := by
  rw [adjErase_eq_map_value]
  rw [alookup_map_value l (fun a s => if a = k then s.erase x else s) u]

theorem keys_adjInsert (l : List (Nat × Finset Nat)) (k x : Nat) :
    (adjInsert l k x).map Prod.fst = l.map Prod.fst := by
  rw [adjInsert_eq_map_value]; simp

theorem keys_adjErase (l : List (Nat × Finset Nat)) (k x : Nat) :
    (adjErase l k x).map Prod.fst = l.map Prod.fst := by
  rw [adjErase_eq_map_value]; simp

theorem adj_eq_empty_of_not_keys {g : UndirectedGraph} {u : Nat}
    (h : u ∉ g.keysF) : g.adj u = ∅ := by
  unfold adj
  rw [(alookup_eq_none g.edges u).2 (by simpa [keysF] using h)]
  rfl

theorem mem_keysF_of_adj {g : UndirectedGraph} {u : Nat}
    (h : g.adj u ≠ ∅) : u ∈ g.keysF := by
  by_contra hc
  exact h (adj_eq_empty_of_not_keys hc)

end UndirectedGraph

/-! ### Constructor and `add_edge` lemmas -/

namespace UndirectedGraph

theorem init_ok {n : Nat} (h : 1 ≤ n) :
    init n = Except.ok
      { size := n
        vertices := Finset.Icc 1 n
        edges := (List.range n).map (fun i => (i + 1, ∅))
        edge_list := [] } := by
  simp [init, h]

theorem init_vertices {n : Nat} {g : UndirectedGraph} (h : init n = Except.ok g) :
    1 ≤ n ∧ g.size = n ∧ g.vertices = Finset.Icc 1 n ∧
      g.edges = (List.range n).map (fun i => (i + 1, ∅)) ∧ g.edge_list = [] := by
  by_cases hn : 1 ≤ n
  · rw [init_ok hn] at h
    refine ⟨hn, ?_, ?_, ?_, ?_⟩ <;> rw [← Except.ok.injEq _ _ |>.mp h]
  · simp [init, hn] at h

theorem adj_init {n : Nat} {g : UndirectedGraph} (h : init n = Except.ok g) (u : Nat) :
    g.adj u = ∅ := by
  obtain ⟨-, -, -, he, -⟩ := init_vertices h
  unfold adj
  rw [he]
  have : ∀ l : List Nat, alookup (l.map (fun i => (i + 1, (∅ : Finset Nat)))) u = none
      ∨ alookup (l.map (fun i => (i + 1, (∅ : Finset Nat)))) u = some ∅ := by
    intro l
    induction l with
    | nil => left; rfl
    | cons a as ih =>
      by_cases ha : a + 1 = u
      · right; simp [alookup, ha]
      · simpa [alookup, ha] using ih
  rcases this (List.range n) with h' | h' <;> simp [h']

theorem keysF_init {n : Nat} {g : UndirectedGraph} (h : init n = Except.ok g) :
    g.keysF = Finset.Icc 1 n := by
  obtain ⟨-, -, -, he, -⟩ := init_vertices h
  unfold keysF
  rw [he]
  ext x
  simp only [List.map_map, List.mem_toFinset, List.mem_map, List.mem_range,
    Function.comp_apply, Finset.mem_Icc]
  constructor
  · rintro ⟨i, hi, rfl⟩
    omega
  · intro hx
    exact ⟨x - 1, by omega, by omega⟩

theorem vertices_addEdgeCore (g : UndirectedGraph) (u v : Nat) :
    (g.addEdgeCore u v).vertices = g.vertices := rfl

theorem size_addEdgeCore (g : UndirectedGraph) (u v : Nat) :
    (g.addEdgeCore u v).size = g.size := rfl

theorem keys_addEdgeCore (g : UndirectedGraph) (u v : Nat) :
    (g.addEdgeCore u v).edges.map Prod.fst = g.edges.map Prod.fst := by
  unfold addEdgeCore
  simp [keys_adjInsert]

theorem keysF_addEdgeCore (g : UndirectedGraph) (u v : Nat) :
    (g.addEdgeCore u v).keysF = g.keysF := by
  unfold keysF
  rw [keys_addEdgeCore]

theorem adj_addEdgeCore (g : UndirectedGraph) (u v : Nat)
    (hu : u ∈ g.keysF) (hv : v ∈ g.keysF) (w : Nat) :
    (g.addEdgeCore u v).adj w
      = if w = u then insert v (g.adj w)
        else if w = v then insert u (g.adj w) else g.adj w := by
  unfold addEdgeCore adj
  simp only [alookup_adjInsert]
  rcases hl : alookup g.edges w with - | s
  · have hw : w ∉ g.keysF := by
      simpa [keysF] using (alookup_eq_none g.edges w).mp hl
    have hwu : w ≠ u := fun h => hw (h ▸ hu)
    have hwv : w ≠ v := fun h => hw (h ▸ hv)
    simp [hl, hwu, hwv]
  · by_cases hwu : w = u
    · by_cases hwv : w = v
      · have huv : u = v := hwu ▸ hwv ▸ rfl
        simp [hl, hwu, hwv, huv, Finset.insert_idem]
      · have hvu : ¬ v = u := fun h => hwv (hwu.trans h.symm)
        simp [hl, hwu, hwv, hvu]
        exact fun h => Or.inl h
    · by_cases hwv : w = v
      · have huv : ¬ u = v := fun h => hwu (hwv.trans h.symm)
        have hvu : ¬ v = u := fun h => huv h.symm
        simp [hl, hwu, hwv, huv, hvu]
      · simp [hl, hwu, hwv]

theorem edge_list_addEdgeCore (g : UndirectedGraph) (u v : Nat) :
    (g.addEdgeCore u v).edge_list
      = if (min u v, max u v) ∈ g.edge_list then g.edge_list
        else g.edge_list ++ [(min u v, max u v)] := rfl

theorem add_edge_ok {g : UndirectedGraph} {u v : Nat}
    (hu : u ∈ g.vertices) (hv : v ∈ g.vertices) :
    add_edge g u v = Except.ok (addEdgeStep g (u, v)) := by
  unfold add_edge addEdgeStep
  by_cases huv : u = v <;> simp [hu, hv, huv]

theorem add_edge_err {g : UndirectedGraph} {u v : Nat}
    (h : ¬ (u ∈ g.vertices ∧ v ∈ g.vertices)) :
    add_edge g u v = Except.error PyErr.invalidVertex := by
  unfold add_edge
  simp [h]

theorem vertices_addEdgeStep (g : UndirectedGraph) (p : Nat × Nat) :
    (addEdgeStep g p).vertices = g.vertices := by
  unfold addEdgeStep
  by_cases h : p.1 = p.2 <;> simp [h, vertices_addEdgeCore]

theorem size_addEdgeStep (g : UndirectedGraph) (p : Nat × Nat) :
    (addEdgeStep g p).size = g.size := by
  unfold addEdgeStep
  by_cases h : p.1 = p.2 <;> simp [h, size_addEdgeCore]

theorem keysF_addEdgeStep (g : UndirectedGraph) (p : Nat × Nat) :
    (addEdgeStep g p).keysF = g.keysF := by
  unfold addEdgeStep
  by_cases h : p.1 = p.2 <;> simp [h, keysF_addEdgeCore]

theorem vertices_addEdgesT (g : UndirectedGraph) (l : List (Nat × Nat)) :
    (addEdgesT g l).vertices = g.vertices := by
  induction l generalizing g with
  | nil => rfl
  | cons p ps ih => rw [addEdgesT, List.foldl_cons, ← addEdgesT, ih, vertices_addEdgeStep]

theorem size_addEdgesT (g : UndirectedGraph) (l : List (Nat × Nat)) :
    (addEdgesT g l).size = g.size := by
  induction l generalizing g with
  | nil => rfl
  | cons p ps ih => rw [addEdgesT, List.foldl_cons, ← addEdgesT, ih, size_addEdgeStep]

theorem keysF_addEdgesT (g : UndirectedGraph) (l : List (Nat × Nat)) :
    (addEdgesT g l).keysF = g.keysF := by
  induction l generalizing g with
  | nil => rfl
  | cons p ps ih => rw [addEdgesT, List.foldl_cons, ← addEdgesT, ih, keysF_addEdgeStep]

theorem foldlM_add_edge_ok (l : List (Nat × Nat)) (g : UndirectedGraph)
    (h : ∀ p ∈ l, p.1 ∈ g.vertices ∧ p.2 ∈ g.vertices) :
    l.foldlM (fun acc p => add_edge acc p.1 p.2) g = Except.ok (addEdgesT g l) := by
  induction l generalizing g with
  | nil => rfl
  | cons p ps ih =>
    have hp := h p (List.mem_cons_self p ps)
    rw [List.foldlM_cons, add_edge_ok hp.1 hp.2]
    show ps.foldlM (fun acc p => add_edge acc p.1 p.2) (addEdgeStep g (p.1, p.2))
      = Except.ok (addEdgesT g (p :: ps))
    rw [addEdgesT, List.foldl_cons]
    exact ih (addEdgeStep g p) (by
      intro q hq
      rw [vertices_addEdgeStep]
      exact h q (List.mem_cons_of_mem p hq))

end UndirectedGraph

/-! ### Characterizing a sequence of `add_edge` calls -/

namespace UndirectedGraph

theorem adj_addEdgeStep (g : UndirectedGraph) (p : Nat × Nat)
    (hu : p.1 ∈ g.keysF) (hv : p.2 ∈ g.keysF) (w b : Nat) :
    b ∈ (addEdgeStep g p).adj w
      ↔ b ∈ g.adj w ∨ (p.1 ≠ p.2 ∧ ((w = p.1 ∧ b = p.2) ∨ (w = p.2 ∧ b = p.1))) := by
  unfold addEdgeStep
  by_cases h : p.1 = p.2
  · simp [h]
  · rw [if_neg h, adj_addEdgeCore g p.1 p.2 hu hv w]
    by_cases hw1 : w = p.1
    · by_cases hw2 : w = p.2
      · exact absurd (hw1 ▸ hw2) h
      · simp [hw1, hw2, h]
        tauto
    · by_cases hw2 : w = p.2
      · have h' : ¬ p.2 = p.1 := fun hc => h hc.symm
        simp [hw1, hw2, h, h']
        tauto
      · simp [hw1, hw2, h]

theorem adj_addEdgesT (l : List (Nat × Nat)) (g : UndirectedGraph)
    (hk : ∀ p ∈ l, p.1 ∈ g.keysF ∧ p.2 ∈ g.keysF) (w b : Nat) :
    b ∈ (addEdgesT g l).adj w
      ↔ b ∈ g.adj w
        ∨ ∃ p ∈ l, p.1 ≠ p.2 ∧ ((w = p.1 ∧ b = p.2) ∨ (w = p.2 ∧ b = p.1)) := by
  induction l generalizing g with
  | nil => simp [addEdgesT]
  | cons p ps ih =>
    have hp := hk p (List.mem_cons_self p ps)
    rw [addEdgesT, List.foldl_cons, ← addEdgesT]
    rw [ih (addEdgeStep g p) (by
      intro q hq
      rw [keysF_addEdgeStep]
      exact hk q (List.mem_cons_of_mem p hq))]
    rw [adj_addEdgeStep g p hp.1 hp.2 w b]
    constructor
    · rintro ((hb | hb) | ⟨q, hq, hne, hor⟩)
      · exact Or.inl hb
      · exact Or.inr ⟨p, List.mem_cons_self p ps, hb⟩
      · exact Or.inr ⟨q, List.mem_cons_of_mem p hq, hne, hor⟩
    · rintro (hb | ⟨q, hq, hne, hor⟩)
      · exact Or.inl (Or.inl hb)
      · rcases List.mem_cons.mp hq with rfl | hq'
        · exact Or.inl (Or.inr ⟨hne, hor⟩)
        · exact Or.inr ⟨q, hq', hne, hor⟩

theorem no_self_loop_addEdgesT (l : List (Nat × Nat)) (g : UndirectedGraph)
    (hk : ∀ p ∈ l, p.1 ∈ g.keysF ∧ p.2 ∈ g.keysF)
    (hg : ∀ x, x ∉ g.adj x) (x : Nat) : x ∉ (addEdgesT g l).adj x := by
  rw [adj_addEdgesT l g hk]
  rintro (hx | ⟨p, hp, hne, (⟨h1, h2⟩ | ⟨h1, h2⟩)⟩)
  · exact hg x hx
  · exact hne (h1 ▸ h2 ▸ rfl)
  · exact hne (h2 ▸ h1 ▸ rfl)

theorem edge_list_addEdgesT_nodup (l : List (Nat × Nat)) (g : UndirectedGraph)
    (hlt : ∀ p ∈ l, p.1 < p.2) (hnd : (g.edge_list ++ l).Nodup) :
    (addEdgesT g l).edge_list = g.edge_list ++ l := by
  induction l generalizing g with
  | nil => simp [addEdgesT]
  | cons p ps ih =>
    have hp1 : p.1 < p.2 := hlt p (List.mem_cons_self p ps)
    have hmin : min p.1 p.2 = p.1 := Nat.min_eq_left (Nat.le_of_lt hp1)
    have hmax : max p.1 p.2 = p.2 := Nat.max_eq_right (Nat.le_of_lt hp1)
    have hne12 : p.1 ≠ p.2 := Nat.ne_of_lt hp1
    have hpg : p ∉ g.edge_list := by
      intro hc
      have := List.disjoint_of_nodup_append hnd
      exact this hc (List.mem_cons_self p ps)
    rw [addEdgesT, List.foldl_cons, ← addEdgesT]
    have hstep : addEdgeStep g p = g.addEdgeCore p.1 p.2 := by
      unfold addEdgeStep
      rw [if_neg hne12]
    rw [hstep, ih]
    · rw [edge_list_addEdgeCore]
      rw [hmin, hmax]
      have : (p.1, p.2) = p := rfl
      rw [this, if_neg hpg]
      simp
    · exact fun q hq => hlt q (List.mem_cons_of_mem p hq)
    · rw [edge_list_addEdgeCore, hmin, hmax]
      have hpp : (p.1, p.2) = p := rfl
      rw [hpp, if_neg hpg]
      have : g.edge_list ++ [p] ++ ps = g.edge_list ++ p :: ps := by simp
      rw [this]
      exact hnd

end UndirectedGraph

/-! ### The representation invariant and its preservation -/

namespace UndirectedGraph

theorem WellFormed.size_eq {g : UndirectedGraph} (h : WellFormed g) :
    g.size = g.vertices.card := h.1

theorem WellFormed.keys_nodup {g : UndirectedGraph} (h : WellFormed g) :
    (g.edges.map Prod.fst).Nodup := h.2.1

theorem WellFormed.keysF_eq {g : UndirectedGraph} (h : WellFormed g) :
    g.keysF = g.vertices := h.2.2.1

theorem WellFormed.adj_sub {g : UndirectedGraph} (h : WellFormed g) :
    ∀ u ∈ g.vertices, g.adj u ⊆ g.vertices := h.2.2.2.1

theorem WellFormed.no_self {g : UndirectedGraph} (h : WellFormed g) :
    ∀ u ∈ g.vertices, u ∉ g.adj u := h.2.2.2.2.1

theorem WellFormed.sym {g : UndirectedGraph} (h : WellFormed g) :
    ∀ u ∈ g.vertices, ∀ v ∈ g.adj u, u ∈ g.adj v := h.2.2.2.2.2.1

theorem WellFormed.adj_to_list {g : UndirectedGraph} (h : WellFormed g) :
    ∀ u ∈ g.vertices, ∀ v ∈ g.adj u, (min u v, max u v) ∈ g.edge_list :=
  h.2.2.2.2.2.2.1

theorem WellFormed.list_to_adj {g : UndirectedGraph} (h : WellFormed g) :
    ∀ p ∈ g.edge_list, p.1 < p.2 ∧ p.1 ∈ g.vertices ∧ p.2 ∈ g.adj p.1 :=
  h.2.2.2.2.2.2.2.1

theorem WellFormed.list_nodup {g : UndirectedGraph} (h : WellFormed g) :
    g.edge_list.Nodup := h.2.2.2.2.2.2.2.2

theorem WellFormed.adj_empty {g : UndirectedGraph} (h : WellFormed g) {u : Nat}
    (hu : u ∉ g.vertices) : g.adj u = ∅ :=
  adj_eq_empty_of_not_keys (h.keysF_eq ▸ hu)

theorem WellFormed.mem_of_adj {g : UndirectedGraph} (h : WellFormed g) {u v : Nat}
    (hv : v ∈ g.adj u) : u ∈ g.vertices ∧ v ∈ g.vertices := by
  have hu : u ∈ g.vertices := by
    by_contra hc
    rw [h.adj_empty hc] at hv
    exact absurd hv (Finset.not_mem_empty v)
  exact ⟨hu, h.adj_sub u hu hv⟩

theorem WellFormed.adj_comm {g : UndirectedGraph} (h : WellFormed g) (u v : Nat) :
    v ∈ g.adj u ↔ u ∈ g.adj v := by
  constructor
  · intro hv
    exact h.sym u (h.mem_of_adj hv).1 v hv
  · intro hu
    exact h.sym v (h.mem_of_adj hu).1 u hu

theorem WellFormed.edge_iff {g : UndirectedGraph} (h : WellFormed g) (u v : Nat) :
    v ∈ g.adj u ↔ (min u v, max u v) ∈ g.edge_list := by
  constructor
  · intro hv
    exact h.adj_to_list u (h.mem_of_adj hv).1 v hv
  · intro hp
    obtain ⟨hlt, hfst, hsnd⟩ := h.list_to_adj _ hp
    rcases Nat.lt_trichotomy u v with hlt' | rfl | hlt'
    · have h1 : min u v = u := Nat.min_eq_left (Nat.le_of_lt hlt')
      have h2 : max u v = v := Nat.max_eq_right (Nat.le_of_lt hlt')
      rw [h1, h2] at hsnd
      exact hsnd
    · simp at hlt
    · have h1 : min u v = v := Nat.min_eq_right (Nat.le_of_lt hlt')
      have h2 : max u v = u := Nat.max_eq_left (Nat.le_of_lt hlt')
      rw [h1, h2] at hsnd hfst
      exact (h.adj_comm v u).mp hsnd

theorem init_wf {n : Nat} {g : UndirectedGraph} (h : init n = Except.ok g) :
    WellFormed g := by
  obtain ⟨hn, hs, hv, he, hel⟩ := init_vertices h
  have hadj : ∀ u, g.adj u = ∅ := adj_init h
  have hkeys : g.keysF = Finset.Icc 1 n := keysF_init h
  refine ⟨?_, ?_, ?_, ?_, ?_, ?_, ?_, ?_, ?_⟩
  · rw [hs, hv, Nat.card_Icc]
    omega
  · rw [he]
    have hmap : ((List.range n).map (fun i => (i + 1, (∅ : Finset Nat)))).map Prod.fst
        = (List.range n).map (fun i => i + 1) := by
      simp
    rw [hmap]
    exact (List.nodup_range n).map (fun a b h => by omega)
  · rw [hkeys, hv]
  · intro u hu
    rw [hadj u]
    exact Finset.empty_subset _
  · intro u hu
    rw [hadj u]
    exact Finset.not_mem_empty u
  · intro u hu v hv
    rw [hadj u] at hv
    exact absurd hv (Finset.not_mem_empty v)
  · intro u hu v hv
    rw [hadj u] at hv
    exact absurd hv (Finset.not_mem_empty v)
  · intro p hp
    rw [hel] at hp
    exact absurd hp (List.not_mem_nil p)
  · rw [hel]
    exact List.nodup_nil

theorem addEdgeStep_wf {g : UndirectedGraph} {p : Nat × Nat} (hwf : WellFormed g)
    (h1 : p.1 ∈ g.vertices) (h2 : p.2 ∈ g.vertices) :
    WellFormed (addEdgeStep g p) := by
  have hk1 : p.1 ∈ g.keysF := hwf.keysF_eq ▸ h1
  have hk2 : p.2 ∈ g.keysF := hwf.keysF_eq ▸ h2
  by_cases hself : p.1 = p.2
  · unfold addEdgeStep
    rw [if_pos hself]
    exact hwf
  have hchar : ∀ w b, b ∈ (addEdgeStep g p).adj w
      ↔ b ∈ g.adj w ∨ ((w = p.1 ∧ b = p.2) ∨ (w = p.2 ∧ b = p.1)) := by
    intro w b
    rw [adj_addEdgeStep g p hk1 hk2 w b]
    tauto
  have hvert : (addEdgeStep g p).vertices = g.vertices := vertices_addEdgeStep g p
  have hsize : (addEdgeStep g p).size = g.size := size_addEdgeStep g p
  have hstep : addEdgeStep g p = g.addEdgeCore p.1 p.2 := by
    unfold addEdgeStep
    rw [if_neg hself]
  have hel : (addEdgeStep g p).edge_list
      = if (min p.1 p.2, max p.1 p.2) ∈ g.edge_list then g.edge_list
        else g.edge_list ++ [(min p.1 p.2, max p.1 p.2)] := by
    rw [hstep]
    exact edge_list_addEdgeCore g p.1 p.2
  have hsub : ∀ q, q ∈ g.edge_list → q ∈ (addEdgeStep g p).edge_list := by
    intro q hq
    rw [hel]
    by_cases hc : (min p.1 p.2, max p.1 p.2) ∈ g.edge_list
    · rw [if_pos hc]; exact hq
    · rw [if_neg hc]; exact List.mem_append_left _ hq
  have hminmax : (min p.1 p.2, max p.1 p.2) ∈ (addEdgeStep g p).edge_list := by
    rw [hel]
    by_cases hc : (min p.1 p.2, max p.1 p.2) ∈ g.edge_list
    · rw [if_pos hc]; exact hc
    · rw [if_neg hc]; exact List.mem_append_right _ (List.mem_singleton_self _)
  have helmem : ∀ q, q ∈ (addEdgeStep g p).edge_list
      → q ∈ g.edge_list ∨ q = (min p.1 p.2, max p.1 p.2) := by
    intro q hq
    rw [hel] at hq
    by_cases hc : (min p.1 p.2, max p.1 p.2) ∈ g.edge_list
    · rw [if_pos hc] at hq; exact Or.inl hq
    · rw [if_neg hc] at hq
      rcases List.mem_append.mp hq with hq | hq
      · exact Or.inl hq
      · exact Or.inr (List.mem_singleton.mp hq)
  refine ⟨?_, ?_, ?_, ?_, ?_, ?_, ?_, ?_, ?_⟩
  · rw [hsize, hvert]; exact hwf.size_eq
  · rw [hstep, keys_addEdgeCore]; exact hwf.keys_nodup
  · rw [keysF_addEdgeStep, hvert]; exact hwf.keysF_eq
  · intro u hu
    rw [hvert] at hu
    intro b hb
    rw [hvert]
    rcases (hchar u b).mp hb with hb | ⟨-, rfl⟩ | ⟨-, rfl⟩
    · exact hwf.adj_sub u hu hb
    · exact h2
    · exact h1
  · intro u hu hb
    rw [hvert] at hu
    rcases (hchar u u).mp hb with hb | ⟨hA, hB⟩ | ⟨hA, hB⟩
    · exact hwf.no_self u hu hb
    · exact hself (hA.symm.trans hB)
    · exact hself (hB.symm.trans hA)
  · intro u hu v hv
    rw [hvert] at hu
    rcases (hchar u v).mp hv with hv | ⟨rfl, rfl⟩ | ⟨rfl, rfl⟩
    · exact (hchar v u).mpr (Or.inl ((hwf.adj_comm u v).mp hv))
    · exact (hchar p.2 p.1).mpr (Or.inr (Or.inr ⟨rfl, rfl⟩))
    · exact (hchar p.1 p.2).mpr (Or.inr (Or.inl ⟨rfl, rfl⟩))
  · intro u hu v hv
    rcases (hchar u v).mp hv with hv | ⟨rfl, rfl⟩ | ⟨rfl, rfl⟩
    · exact hsub _ (hwf.adj_to_list u (by rw [hvert] at hu; exact hu) v hv)
    · exact hminmax
    · rw [Nat.min_comm, Nat.max_comm]
      exact hminmax
  · intro q hq
    rcases helmem q hq with hq' | rfl
    · obtain ⟨ha, hb, hc⟩ := hwf.list_to_adj q hq'
      refine ⟨ha, by rw [hvert]; exact hb, (hchar q.1 q.2).mpr (Or.inl hc)⟩
    · have hlt : min p.1 p.2 < max p.1 p.2 := by
        rcases Nat.lt_or_ge p.1 p.2 with h | h
        · rw [Nat.min_eq_left (Nat.le_of_lt h), Nat.max_eq_right (Nat.le_of_lt h)]
          exact h
        · have h' : p.2 < p.1 := Nat.lt_of_le_of_ne h (fun hc => hself hc.symm)
          rw [Nat.min_eq_right (Nat.le_of_lt h'), Nat.max_eq_left (Nat.le_of_lt h')]
          exact h'
      refine ⟨hlt, ?_, ?_⟩
      · rw [hvert]
        rcases Nat.le_total p.1 p.2 with h | h
        · rw [Nat.min_eq_left h]; exact h1
        · rw [Nat.min_eq_right h]; exact h2
      · rcases Nat.le_total p.1 p.2 with h | h
        · rw [Nat.min_eq_left h, Nat.max_eq_right h]
          exact (hchar p.1 p.2).mpr (Or.inr (Or.inl ⟨rfl, rfl⟩))
        · rw [Nat.min_eq_right h, Nat.max_eq_left h]
          exact (hchar p.2 p.1).mpr (Or.inr (Or.inr ⟨rfl, rfl⟩))
  · rw [hel]
    by_cases hc : (min p.1 p.2, max p.1 p.2) ∈ g.edge_list
    · rw [if_pos hc]; exact hwf.list_nodup
    · rw [if_neg hc]
      rw [List.nodup_append]
      exact ⟨hwf.list_nodup, List.nodup_singleton _, by
        intro a ha hb
        rw [List.mem_singleton] at hb
        exact hc (hb ▸ ha)⟩

end UndirectedGraph

/-! ### Removal operations -/

namespace UndirectedGraph

theorem minmax_cases {a b c d : Nat} (h : (min a b, max a b) = (min c d, max c d)) :
    (a = c ∧ b = d) ∨ (a = d ∧ b = c) := by
  have h1 : min a b = min c d := congrArg Prod.fst h
  have h2 : max a b = max c d := congrArg Prod.snd h
  omega

theorem adj_eraseCore (g : UndirectedGraph) (u v : Nat) (w : Nat) :
    (alookup (adjErase (adjErase g.edges u v) v u) w).getD ∅
      = if w = u then (g.adj w).erase v
        else if w = v then (g.adj w).erase u else g.adj w := by
  rw [alookup_adjErase, alookup_adjErase]
  unfold adj
  rcases hl : alookup g.edges w with - | s
  · by_cases hwu : w = u <;> by_cases hwv : w = v <;>
      simp [hwu, hwv, Finset.erase_empty]
  · simp only [Option.map_some', Option.getD_some]
    by_cases hwu : w = u
    · by_cases hwv : w = v
      · have huv : u = v := hwu ▸ hwv ▸ rfl
        rw [if_pos hwv, if_pos hwu, if_pos hwu, huv, Finset.erase_idem]
      · rw [if_neg hwv, if_pos hwu, if_pos hwu]
    · by_cases hwv : w = v
      · rw [if_pos hwv, if_neg hwu, if_neg hwu, if_pos hwv]
      · rw [if_neg hwv, if_neg hwu, if_neg hwu, if_neg hwv]

theorem remove_edge_ok {g : UndirectedGraph} {u v : Nat}
    (hvert : u ∈ g.vertices ∧ v ∈ g.vertices)
    (hadj : u ∈ g.adj v ∧ v ∈ g.adj u)
    (hpl : (min u v, max u v) ∈ g.edge_list) :
    remove_edge g u v = Except.ok
      { g with
        edges := adjErase (adjErase g.edges u v) v u
        edge_list := g.edge_list.erase (min u v, max u v) } := by
  unfold remove_edge
  rw [if_pos hvert, if_pos hadj, if_pos hpl]

theorem remove_edge_adj {g : UndirectedGraph} {u v : Nat} {g' : UndirectedGraph}
    (h : g' = { g with
        edges := adjErase (adjErase g.edges u v) v u
        edge_list := g.edge_list.erase (min u v, max u v) })
    (hne : u ≠ v) (w b : Nat) :
    b ∈ g'.adj w ↔ b ∈ g.adj w ∧ ¬ (w = u ∧ b = v) ∧ ¬ (w = v ∧ b = u) := by
  have hadj : g'.adj w
      = if w = u then (g.adj w).erase v
        else if w = v then (g.adj w).erase u else g.adj w := by
    rw [h]
    exact adj_eraseCore g u v w
  rw [hadj]
  by_cases hwu : w = u
  · have hwv : ¬ w = v := fun hc => hne (hwu.symm.trans hc)
    rw [if_pos hwu]
    simp only [Finset.mem_erase, hwu, hwv]
    tauto
  · by_cases hwv : w = v
    · rw [if_neg hwu, if_pos hwv]
      simp only [Finset.mem_erase, hwu, hwv]
      tauto
    · rw [if_neg hwu, if_neg hwv]
      tauto

theorem remove_edge_wf {g : UndirectedGraph} {u v : Nat} {g' : UndirectedGraph}
    (hwf : WellFormed g) (h : remove_edge g u v = Except.ok g') :
    WellFormed g' := by
  unfold remove_edge at h
  by_cases hvert : u ∈ g.vertices ∧ v ∈ g.vertices
  swap
  · rw [if_neg hvert] at h
    exact absurd h (by simp)
  rw [if_pos hvert] at h
  by_cases hadj : u ∈ g.adj v ∧ v ∈ g.adj u
  swap
  · rw [if_neg hadj] at h
    exact absurd h (by simp)
  rw [if_pos hadj] at h
  by_cases hpl : (min u v, max u v) ∈ g.edge_list
  swap
  · rw [if_neg hpl] at h
    exact absurd h (by simp)
  rw [if_pos hpl] at h
  have hg' := ((Except.ok.injEq _ _).mp h).symm
  have hne : u ≠ v := by
    intro hc
    exact hwf.no_self u hvert.1 (hc ▸ hadj.2)
  have hchar : ∀ w b, b ∈ g'.adj w
      ↔ b ∈ g.adj w ∧ ¬ (w = u ∧ b = v) ∧ ¬ (w = v ∧ b = u) :=
    remove_edge_adj hg' hne
  have hv' : g'.vertices = g.vertices := by rw [hg']
  have hs' : g'.size = g.size := by rw [hg']
  have hel' : g'.edge_list = g.edge_list.erase (min u v, max u v) := by rw [hg']
  have hkeys : g'.edges.map Prod.fst = g.edges.map Prod.fst := by
    rw [hg']
    show (adjErase (adjErase g.edges u v) v u).map Prod.fst = g.edges.map Prod.fst
    rw [keys_adjErase, keys_adjErase]
  have hmem_el : ∀ q, q ∈ g'.edge_list ↔ q ≠ (min u v, max u v) ∧ q ∈ g.edge_list := by
    intro q
    rw [hel']
    exact hwf.list_nodup.mem_erase_iff
  refine ⟨?_, ?_, ?_, ?_, ?_, ?_, ?_, ?_, ?_⟩
  · rw [hs', hv']; exact hwf.size_eq
  · rw [hkeys]; exact hwf.keys_nodup
  · show g'.keysF = g'.vertices
    unfold keysF
    rw [hkeys, hv']
    exact hwf.keysF_eq
  · intro w hw b hb
    rw [hv'] at hw ⊢
    exact hwf.adj_sub w hw ((hchar w b).mp hb).1
  · intro w hw hb
    rw [hv'] at hw
    exact hwf.no_self w hw ((hchar w w).mp hb).1
  · intro w hw b hb
    obtain ⟨hb', hn1, hn2⟩ := (hchar w b).mp hb
    refine (hchar b w).mpr ⟨(hwf.adj_comm w b).mp hb', ?_, ?_⟩
    · intro ⟨hbu, hwv⟩
      exact hn2 ⟨hwv, hbu⟩
    · intro ⟨hbv, hwu⟩
      exact hn1 ⟨hwu, hbv⟩
  · intro w hw b hb
    obtain ⟨hb', hn1, hn2⟩ := (hchar w b).mp hb
    rw [hv'] at hw
    refine (hmem_el _).mpr ⟨?_, hwf.adj_to_list w hw b hb'⟩
    intro hc
    rcases minmax_cases hc.symm with ⟨h1, h2⟩ | ⟨h1, h2⟩
    · exact hn1 ⟨h1.symm, h2.symm⟩
    · exact hn2 ⟨h2.symm, h1.symm⟩
  · intro q hq
    obtain ⟨hqp, hq'⟩ := (hmem_el q).mp hq
    obtain ⟨hlt, hq1, hq2⟩ := hwf.list_to_adj q hq'
    refine ⟨hlt, by rw [hv']; exact hq1, ?_⟩
    refine (hchar q.1 q.2).mpr ⟨hq2, ?_, ?_⟩
    · intro ⟨h1, h2⟩
      apply hqp
      rw [Prod.ext_iff]
      constructor
      · show q.1 = min u v
        omega
      · show q.2 = max u v
        omega
    · intro ⟨h1, h2⟩
      apply hqp
      rw [Prod.ext_iff]
      constructor
      · show q.1 = min u v
        omega
      · show q.2 = max u v
        omega
  · rw [hel']
    exact hwf.list_nodup.erase _

end UndirectedGraph

namespace UndirectedGraph

theorem alookup_foldl_adjErase (nbrs : List Nat) (l : List (Nat × Finset Nat))
    (node w : Nat) :
    alookup (nbrs.foldl (fun acc nb => adjErase acc nb node) l) w
      = if w ∈ nbrs then (alookup l w).map (fun s => s.erase node)
        else alookup l w := by
  induction nbrs generalizing l with
  | nil => simp
  | cons x xs ih =>
    rw [List.foldl_cons, ih, alookup_adjErase]
    rcases hl : alookup l w with - | s
    · by_cases hx : w = x <;> by_cases hxs : w ∈ xs <;> simp [hx, hxs]
    · by_cases hx : w = x <;> by_cases hxs : w ∈ xs <;>
        simp [hx, hxs, Finset.erase_idem]

theorem alookup_filter_ne {β : Type} (l : List (Nat × β)) (node w : Nat) :
    alookup (l.filter (fun e => e.1 ≠ node)) w
      = if w = node then none else alookup l w := by
  induction l with
  | nil => simp [alookup]
  | cons e es ih =>
    by_cases he : e.1 = node
    · rw [List.filter_cons_of_neg (by simp [he]), ih]
      by_cases hw : w = node
      · rw [if_pos hw, if_pos hw]
      · rw [if_neg hw, if_neg hw]
        have hne : ¬ e.1 = w := fun hc => hw (hc ▸ he ▸ rfl)
        simp [alookup, hne]
    · rw [List.filter_cons_of_pos (by simp [he])]
      by_cases hew : e.1 = w
      · have hwn : ¬ w = node := fun hc => he (hew.trans hc)
        simp [alookup, hew, hwn]
      · simp only [alookup, if_neg hew, ih]

theorem keys_foldl_adjErase (nbrs : List Nat) (l : List (Nat × Finset Nat)) (node : Nat) :
    (nbrs.foldl (fun acc nb => adjErase acc nb node) l).map Prod.fst
      = l.map Prod.fst := by
  induction nbrs generalizing l with
  | nil => rfl
  | cons x xs ih =>
    rw [List.foldl_cons, ih, keys_adjErase]

theorem keys_filter_ne (l : List (Nat × Finset Nat)) (node : Nat) :
    (l.filter (fun e => e.1 ≠ node)).map Prod.fst
      = (l.map Prod.fst).filter (fun k => decide (k ≠ node)) := by
  induction l with
  | nil => rfl
  | cons e es ih =>
    by_cases he : e.1 = node
    · rw [List.filter_cons_of_neg (by simp [he]), List.map_cons,
        List.filter_cons_of_neg (by simp [he]), ih]
    · rw [List.filter_cons_of_pos (by simp [he]), List.map_cons, List.map_cons,
        List.filter_cons_of_pos (by simp [he]), ih]

theorem foldl_erase_eq_filter (ps : List (Nat × Nat)) (L : List (Nat × Nat))
    (hnd : L.Nodup) :
    ps.foldl (fun acc x => acc.erase x) L = L.filter (fun a => decide (a ∉ ps)) := by
  induction ps generalizing L with
  | nil => simp
  | cons x xs ih =>
    rw [List.foldl_cons, ih (L.erase x) (hnd.erase x), hnd.erase_eq_filter x]
    rw [List.filter_filter]
    apply List.filter_congr
    intro a ha
    simp only [List.mem_cons, decide_not]
    by_cases h1 : a = x <;> by_cases h2 : a ∈ xs <;> simp [h1, h2]

theorem remove_node_ok {g : UndirectedGraph} {node : Nat} (hv : node ∈ g.vertices) :
    remove_node g node = Except.ok
      { size := g.size - 1
        vertices := g.vertices.erase node
        edges :=
          ((sortedList (g.adj node)).foldl
            (fun l nb => adjErase l nb node) g.edges).filter (fun e => e.1 ≠ node)
        edge_list :=
          (sortedList (g.adj node)).foldl
            (fun el nb => el.erase (min node nb, max node nb)) g.edge_list } := by
  unfold remove_node
  rw [if_pos hv]

theorem remove_node_err {g : UndirectedGraph} {node : Nat} (hv : node ∉ g.vertices) :
    remove_node g node = Except.error PyErr.invalidVertex := by
  unfold remove_node
  rw [if_neg hv]

theorem remove_node_spec {g : UndirectedGraph} {node : Nat}
    (hwf : WellFormed g) (hv : node ∈ g.vertices) :
    ∃ g', remove_node g node = Except.ok g'
      ∧ g'.size = g.size - 1
      ∧ g'.vertices = g.vertices.erase node
      ∧ g'.adj node = ∅
      ∧ (∀ w, w ≠ node → g'.adj w = (g.adj w).erase node)
      ∧ g'.edge_list = g.edge_list.filter (fun q => decide (q.1 ≠ node ∧ q.2 ≠ node))
      ∧ g'.edges.map Prod.fst = (g.edges.map Prod.fst).filter (fun k => decide (k ≠ node)) := by
  refine ⟨_, remove_node_ok hv, rfl, rfl, ?_, ?_, ?_, ?_⟩
  · show (alookup (List.filter (fun e => e.1 ≠ node) _) node).getD ∅ = ∅
    rw [alookup_filter_ne, if_pos rfl]
    rfl
  · intro w hw
    show (alookup (List.filter (fun e => e.1 ≠ node) _) w).getD ∅ = (g.adj w).erase node
    rw [alookup_filter_ne, if_neg hw, alookup_foldl_adjErase]
    by_cases hmem : w ∈ sortedList (g.adj node)
    · rw [if_pos hmem]
      rcases hl : alookup g.edges w with - | s
      · have : g.adj w = ∅ := by unfold adj; rw [hl]; rfl
        rw [this]
        simp [Finset.erase_empty]
      · have : g.adj w = s := by unfold adj; rw [hl]; rfl
        rw [this]
        simp
    · rw [if_neg hmem]
      have hnode : node ∉ g.adj w := by
        intro hc
        exact hmem ((mem_sortedList _ _).mpr ((hwf.adj_comm w node).mp hc))
      rw [Finset.erase_eq_of_not_mem hnode]
      rfl
  · show (sortedList (g.adj node)).foldl
        (fun el nb => el.erase (min node nb, max node nb)) g.edge_list
      = g.edge_list.filter (fun q => decide (q.1 ≠ node ∧ q.2 ≠ node))
    have hfold : (sortedList (g.adj node)).foldl
          (fun el nb => el.erase (min node nb, max node nb)) g.edge_list
        = ((sortedList (g.adj node)).map (fun nb => (min node nb, max node nb))).foldl
            (fun acc x => acc.erase x) g.edge_list := by
      rw [List.foldl_map]
    rw [hfold, foldl_erase_eq_filter _ _ hwf.list_nodup]
    apply List.filter_congr
    intro q hq
    obtain ⟨hlt, hq1, hq2⟩ := hwf.list_to_adj q hq
    rw [decide_eq_decide, List.mem_map]
    constructor
    · intro hnp
      constructor
      · intro hc
        apply hnp
        refine ⟨q.2, ?_, ?_⟩
        · rw [mem_sortedList]
          rw [hc] at hq2
          exact hq2
        · rw [Prod.ext_iff]
          refine ⟨?_, ?_⟩
          · show min node q.2 = q.1
            omega
          · show max node q.2 = q.2
            omega
      · intro hc
        apply hnp
        refine ⟨q.1, ?_, ?_⟩
        · rw [mem_sortedList]
          rw [hc] at hq2
          exact (hwf.adj_comm q.1 node).mp hq2
        · rw [Prod.ext_iff]
          refine ⟨?_, ?_⟩
          · show min node q.1 = q.1
            omega
          · show max node q.1 = q.2
            omega
    · rintro ⟨hn1, hn2⟩ ⟨nb, hnb, hc⟩
      have h1 : min node nb = q.1 := congrArg Prod.fst hc
      have h2 : max node nb = q.2 := congrArg Prod.snd hc
      omega
  · show (((sortedList (g.adj node)).foldl
          (fun l nb => adjErase l nb node) g.edges).filter
        (fun e => e.1 ≠ node)).map Prod.fst
      = (g.edges.map Prod.fst).filter (fun k => decide (k ≠ node))
    rw [keys_filter_ne, keys_foldl_adjErase]

end UndirectedGraph

namespace UndirectedGraph

theorem remove_node_wf {g : UndirectedGraph} {node : Nat} {g' : UndirectedGraph}
    (hwf : WellFormed g) (h : remove_node g node = Except.ok g') :
    WellFormed g' := by
  by_cases hv : node ∈ g.vertices
  swap
  · rw [remove_node_err hv] at h
    exact absurd h (by simp)
  obtain ⟨g'', hok, hs, hvert, hadjn, hadj, hel, hkeys⟩ := remove_node_spec hwf hv
  have hgg : g' = g'' := by
    rw [hok] at h
    exact ((Except.ok.injEq _ _).mp h).symm
  subst hgg
  have hmem_el : ∀ q, q ∈ g'.edge_list ↔ q ∈ g.edge_list ∧ q.1 ≠ node ∧ q.2 ≠ node := by
    intro q
    rw [hel, List.mem_filter]
    simp
  have hmem_adj : ∀ w b, b ∈ g'.adj w ↔ w ≠ node ∧ b ≠ node ∧ b ∈ g.adj w := by
    intro w b
    by_cases hw : w = node
    · subst hw
      rw [hadjn]
      simp
    · rw [hadj w hw, Finset.mem_erase]
      tauto
  refine ⟨?_, ?_, ?_, ?_, ?_, ?_, ?_, ?_, ?_⟩
  · rw [hs, hvert, Finset.card_erase_of_mem hv, hwf.size_eq]
  · rw [hkeys]
    exact hwf.keys_nodup.filter _
  · show g'.keysF = g'.vertices
    unfold keysF
    rw [hkeys, hvert]
    ext x
    rw [List.mem_toFinset, List.mem_filter, Finset.mem_erase]
    have : x ∈ g.edges.map Prod.fst ↔ x ∈ g.vertices := by
      rw [← List.mem_toFinset]
      show x ∈ g.keysF ↔ x ∈ g.vertices
      rw [hwf.keysF_eq]
    simp [this]
    tauto
  · intro u hu b hb
    obtain ⟨hun, hbn, hb'⟩ := (hmem_adj u b).mp hb
    rw [hvert] at hu ⊢
    rw [Finset.mem_erase] at hu ⊢
    exact ⟨hbn, hwf.adj_sub u hu.2 hb'⟩
  · intro u hu hb
    rw [hvert, Finset.mem_erase] at hu
    exact hwf.no_self u hu.2 ((hmem_adj u u).mp hb).2.2
  · intro u hu b hb
    obtain ⟨hun, hbn, hb'⟩ := (hmem_adj u b).mp hb
    exact (hmem_adj b u).mpr ⟨hbn, hun, (hwf.adj_comm u b).mp hb'⟩
  · intro u hu b hb
    obtain ⟨hun, hbn, hb'⟩ := (hmem_adj u b).mp hb
    rw [hvert, Finset.mem_erase] at hu
    refine (hmem_el _).mpr ⟨hwf.adj_to_list u hu.2 b hb', ?_, ?_⟩
    · show min u b ≠ node
      omega
    · show max u b ≠ node
      omega
  · intro q hq
    obtain ⟨hq', hn1, hn2⟩ := (hmem_el q).mp hq
    obtain ⟨hlt, hq1, hq2⟩ := hwf.list_to_adj q hq'
    refine ⟨hlt, ?_, ?_⟩
    · rw [hvert, Finset.mem_erase]
      exact ⟨hn1, hq1⟩
    · exact (hmem_adj q.1 q.2).mpr ⟨hn1, hn2, hq2⟩
  · rw [hel]
    exact hwf.list_nodup.filter _

theorem add_edge_wf {g : UndirectedGraph} {u v : Nat} {g' : UndirectedGraph}
    (hwf : WellFormed g) (h : add_edge g u v = Except.ok g') :
    WellFormed g' := by
  by_cases hval : u ∈ g.vertices ∧ v ∈ g.vertices
  swap
  · rw [add_edge_err hval] at h
    exact absurd h (by simp)
  rw [add_edge_ok hval.1 hval.2] at h
  rw [← (Except.ok.injEq _ _).mp h]
  exact addEdgeStep_wf hwf hval.1 hval.2

theorem reachable_wf {g : UndirectedGraph} (h : Reachable g) : WellFormed g := by
  induction h with
  | init n g hg => exact init_wf hg
  | add_edge g u v g' hr hok ih => exact add_edge_wf ih hok
  | remove_edge g u v g' hr hok ih => exact remove_edge_wf ih hok
  | remove_node g v g' hr hok ih => exact remove_node_wf ih hok

end UndirectedGraph

/-! ### Reachability of the concrete example graphs -/

open UndirectedGraph

theorem wTwo_reachable : Reachable wTwo :=
  Reachable.init 2 wTwo (by decide)

theorem wK2_reachable : Reachable wK2 :=
  Reachable.add_edge wTwo 1 2 wK2 wTwo_reachable (by decide)

theorem wOne2_reachable : Reachable wOne2 :=
  Reachable.remove_node wTwo 1 wOne2 wTwo_reachable (by decide)

theorem wOneV_reachable : Reachable wOneV :=
  Reachable.init 1 wOneV (by decide)

theorem wEmpty_reachable : Reachable wEmpty :=
  Reachable.remove_node wOneV 1 wEmpty wOneV_reachable (by decide)

theorem wTri_reachable : Reachable wTri := by
  have h0 : Reachable
      { size := 3
        vertices := {1, 2, 3}
        edges := [(1, ∅), (2, ∅), (3, ∅)]
        edge_list := [] } :=
    Reachable.init 3 _ (by decide)
  have h1 : Reachable
      { size := 3
        vertices := {1, 2, 3}
        edges := [(1, {2}), (2, {1}), (3, ∅)]
        edge_list := [(1, 2)] } :=
    Reachable.add_edge _ 1 2 _ h0 (by decide)
  have h2 : Reachable
      { size := 3
        vertices := {1, 2, 3}
        edges := [(1, {2}), (2, {1, 3}), (3, {2})]
        edge_list := [(1, 2), (2, 3)] } :=
    Reachable.add_edge _ 2 3 _ h1 (by decide)
  exact Reachable.add_edge _ 1 3 wTri h2 (by decide)

theorem wPath3_reachable : Reachable wPath3 := by
  have h0 : Reachable
      { size := 3
        vertices := {1, 2, 3}
        edges := [(1, ∅), (2, ∅), (3, ∅)]
        edge_list := [] } :=
    Reachable.init 3 _ (by decide)
  have h1 : Reachable
      { size := 3
        vertices := {1, 2, 3}
        edges := [(1, {2}), (2, {1}), (3, ∅)]
        edge_list := [(1, 2)] } :=
    Reachable.add_edge _ 1 2 _ h0 (by decide)
  exact Reachable.add_edge _ 2 3 wPath3 h1 (by decide)

/-! ### Claim theorems -/

/-- Claim C2: every graph state reachable through construction, `add_edge`,
`remove_edge` and `remove_node` satisfies: `adjacency[u]` contains `v` iff
`adjacency[v]` contains `u`, iff `(min(u,v), max(u,v))` is in the edge list;
and the stored vertex count equals the cardinality of the vertex set. -/
theorem C2_reachable_invariant (g : UndirectedGraph) (h : Reachable g) :
    (∀ u v : Nat, (v ∈ g.adj u ↔ u ∈ g.adj v)
      ∧ (v ∈ g.adj u ↔ (min u v, max u v) ∈ g.edge_list))
    ∧ g.size = g.vertices.card := by
  have hwf := reachable_wf h
  exact ⟨fun u v => ⟨hwf.adj_comm u v, hwf.edge_iff u v⟩, hwf.size_eq⟩

/-- Witness for C2 at a concrete reachable state: the path `1-2-3`. -/
theorem C2_reachable_invariant_witness :
    ((3 ∈ wPath3.adj 2 ↔ 2 ∈ wPath3.adj 3)
      ∧ (3 ∈ wPath3.adj 2 ↔ (min 2 3, max 2 3) ∈ wPath3.edge_list))
    ∧ wPath3.size = wPath3.vertices.card :=
  ⟨(C2_reachable_invariant wPath3 wPath3_reachable).1 2 3,
    (C2_reachable_invariant wPath3 wPath3_reachable).2⟩

/-- Claim C7: on a well-formed state, `remove_node(v)` with `v` present
deletes `v` and every incident edge from both the adjacency dict and the
edge list, keeps every other vertex id unchanged, leaves edges not incident
to `v` untouched, and decrements the stored size; with `v` absent it fails
with `InvalidVertex`. -/
theorem C7_remove_node_spec (g : UndirectedGraph) (v : Nat) (hwf : g.WellFormed) :
    (v ∈ g.vertices →
      ∃ g', g.remove_node v = Except.ok g'
        ∧ g'.vertices = g.vertices.erase v
        ∧ g'.size = g.size - 1
        ∧ g'.adj v = ∅
        ∧ (∀ w, w ≠ v → g'.adj w = (g.adj w).erase v)
        ∧ g'.edge_list = g.edge_list.filter (fun q => decide (q.1 ≠ v ∧ q.2 ≠ v)))
    ∧ (v ∉ g.vertices → g.remove_node v = Except.error PyErr.invalidVertex) := by
  constructor
  · intro hv
    obtain ⟨g', hok, hs, hvert, hadjn, hadj, hel, -⟩ := remove_node_spec hwf hv
    exact ⟨g', hok, hvert, hs, hadjn, hadj, hel⟩
  · intro hv
    exact remove_node_err hv

/-- Witness for C7 on the triangle: removing vertex `2`, and failing on the
absent vertex `9`. -/
theorem C7_remove_node_spec_witness :
    (∃ g', wTri.remove_node 2 = Except.ok g'
        ∧ g'.vertices = wTri.vertices.erase 2
        ∧ g'.size = wTri.size - 1
        ∧ g'.adj 2 = ∅
        ∧ (∀ w, w ≠ 2 → g'.adj w = (wTri.adj w).erase 2)
        ∧ g'.edge_list = wTri.edge_list.filter (fun q => decide (q.1 ≠ 2 ∧ q.2 ≠ 2)))
    ∧ wTri.remove_node 9 = Except.error PyErr.invalidVertex :=
  ⟨(C7_remove_node_spec wTri 2 (by decide)).1 (by decide),
    (C7_remove_node_spec wTri 9 (by decide)).2 (by decide)⟩

/-- Claim C8 counterexample: the claim says `addEdge(u,u)` never raises even
when `u` is outside the vertex set, but `add_edge` asserts membership before
the self-loop check: on the reachable state `wK2` (vertices `{1,2}`),
`add_edge(3,3)` raises `InvalidVertex` instead of being a no-op. -/
theorem C8_self_loop_counterexample :
    UndirectedGraph.add_edge wK2 3 3 = Except.error PyErr.invalidVertex
      ∧ Reachable wK2 :=
  ⟨by decide, wK2_reachable⟩

/-- Claim C8 (amended): `add_edge(u,u)` is a no-op returning the state
unchanged when `u` is a current vertex, and fails with `InvalidVertex` when
`u` is not (the membership assert runs before the self-loop early return). -/
theorem C8_self_loop (g : UndirectedGraph) (u : Nat) :
    (u ∈ g.vertices → g.add_edge u u = Except.ok g)
    ∧ (u ∉ g.vertices → g.add_edge u u = Except.error PyErr.invalidVertex) := by
  constructor
  · intro hu
    unfold UndirectedGraph.add_edge
    rw [if_pos ⟨hu, hu⟩, if_pos rfl]
  · intro hu
    unfold UndirectedGraph.add_edge
    rw [if_neg (fun hc => hu hc.1)]

/-- Witness for C8 at concrete inputs: vertex `1` of `wK2` and the absent
id `3`. -/
theorem C8_self_loop_witness :
    UndirectedGraph.add_edge wK2 1 1 = Except.ok wK2
      ∧ UndirectedGraph.add_edge wK2 3 3 = Except.error PyErr.invalidVertex :=
  ⟨(C8_self_loop wK2 1).1 (by decide), (C8_self_loop wK2 3).2 (by decide)⟩

/-- Claim C9: `TreeDecomposition.__init__` calls `super.__init__(self, size)`
on the builtin `super` type itself, which raises `TypeError` for every size,
so no `TreeDecomposition` value is ever constructed and `add_to_bag`,
`get_width`, `reconstruct_parent_tree` are unreachable on an instance. -/
theorem C9_tree_decomposition_broken (size : Nat) :
    TreeDecomposition.init size = Except.error PyErr.typeError := rfl

namespace UndirectedGraph

theorem except_bind_ok {α β : Type} (e : Except PyErr α) (f : α → Except PyErr β)
    (b : β) : e >>= f = Except.ok b ↔ ∃ a, e = Except.ok a ∧ f a = Except.ok b := by
  cases e with
  | ok a =>
    show f a = Except.ok b ↔ _
    constructor
    · intro h
      exact ⟨a, rfl, h⟩
    · rintro ⟨a', ha', hf⟩
      rw [← (Except.ok.injEq _ _).mp ha'] at hf
      exact hf
  | error err =>
    constructor
    · intro h
      exact absurd h (by simp [Bind.bind, Except.bind])
    · rintro ⟨a', ha', -⟩
      exact absurd ha' (by simp)

theorem add_edge_ok_vertices {g g' : UndirectedGraph} {u v : Nat}
    (h : add_edge g u v = Except.ok g') : g'.vertices = g.vertices := by
  unfold add_edge at h
  by_cases hval : u ∈ g.vertices ∧ v ∈ g.vertices
  · rw [if_pos hval] at h
    by_cases huv : u = v
    · rw [if_pos huv] at h
      rw [← (Except.ok.injEq _ _).mp h]
    · rw [if_neg huv] at h
      rw [← (Except.ok.injEq _ _).mp h]
      rfl
  · rw [if_neg hval] at h
    exact absurd h (by simp)

theorem foldlM_ok_vertices {α : Type} (f : UndirectedGraph → α → Except PyErr UndirectedGraph)
    (hf : ∀ g a g', f g a = Except.ok g' → g'.vertices = g.vertices) :
    ∀ (l : List α) (g g' : UndirectedGraph),
      l.foldlM f g = Except.ok g' → g'.vertices = g.vertices := by
  intro l
  induction l with
  | nil =>
    intro g g' h
    rw [← (Except.ok.injEq _ _).mp h]
  | cons a as ih =>
    intro g g' h
    rw [List.foldlM_cons] at h
    obtain ⟨g₁, h₁, h₂⟩ := (except_bind_ok _ _ _).mp h
    rw [ih g₁ g' h₂, hf g a g₁ h₁]

theorem init_ok_nonempty {n : Nat} {g : UndirectedGraph}
    (h : init n = Except.ok g) : g.vertices.Nonempty := by
  obtain ⟨hn, -, hv, -, -⟩ := init_vertices h
  rw [hv]
  exact ⟨1, Finset.mem_Icc.mpr ⟨Nat.le_refl 1, hn⟩⟩

theorem subgraph_ok_vertices {g : UndirectedGraph} {S : Finset Nat}
    {h : UndirectedGraph} (hok : subgraph g S = Except.ok h) :
    h.vertices.Nonempty := by
  unfold subgraph at hok
  obtain ⟨h₀, h₁, h₂⟩ := (except_bind_ok _ _ _).mp hok
  have hpres : h.vertices = h₀.vertices := by
    refine foldlM_ok_vertices _ ?_ _ _ _ h₂
    intro g' a g'' hin
    refine foldlM_ok_vertices _ ?_ _ _ _ hin
    intro g₃ nb g₄ hstep
    by_cases hc : nb ∉ S
    · rw [if_pos hc] at hstep
      rw [← (Except.ok.injEq _ _).mp hstep]
    · rw [if_neg hc] at hstep
      exact add_edge_ok_vertices hstep
  rw [hpres]
  exact init_ok_nonempty h₁

theorem contract_ok_vertices {g : UndirectedGraph} {m : List (Nat × Nat)}
    {h : UndirectedGraph} (hok : contract_graph g m = Except.ok h) :
    h.vertices.Nonempty := by
  unfold contract_graph at hok
  obtain ⟨h₀, h₁, h₂⟩ := (except_bind_ok _ _ _).mp hok
  have hpres : h.vertices = h₀.vertices := by
    refine foldlM_ok_vertices _ ?_ _ _ _ h₂
    intro g' a g'' hin
    refine foldlM_ok_vertices _ ?_ _ _ _ hin
    intro g₃ nb g₄ hstep
    by_cases hc : (a.1, nb) ∈ m
    · rw [if_pos hc] at hstep
      rw [← (Except.ok.injEq _ _).mp hstep]
    · rw [if_neg hc] at hstep
      exact add_edge_ok_vertices hstep
  rw [hpres]
  exact init_ok_nonempty h₁

theorem copy_ok_vertices {g : UndirectedGraph} {h : UndirectedGraph}
    (hok : copy g = Except.ok h) : h.vertices.Nonempty := by
  unfold copy at hok
  obtain ⟨h₀, h₁, h₂⟩ := (except_bind_ok _ _ _).mp hok
  have hpres : h.vertices = h₀.vertices := by
    refine foldlM_ok_vertices _ ?_ _ _ _ h₂
    intro g' a g'' hstep
    exact add_edge_ok_vertices hstep
  rw [hpres]
  exact init_ok_nonempty h₁

end UndirectedGraph

/-- Claim C10: `subgraph(∅)` fails with `InvalidSize` (the constructor
rejects a vertex count below 1), and no derived graph (`subgraph`,
`contract_graph`, `copy` output) is ever empty. -/
theorem C10_empty_subgraph :
    (∀ g : UndirectedGraph, g.subgraph ∅ = Except.error PyErr.invalidSize)
    ∧ (∀ (g h : UndirectedGraph) (S : Finset Nat),
        g.subgraph S = Except.ok h → h.vertices.Nonempty)
    ∧ (∀ (g h : UndirectedGraph) (m : List (Nat × Nat)),
        g.contract_graph m = Except.ok h → h.vertices.Nonempty)
    ∧ (∀ g h : UndirectedGraph, g.copy = Except.ok h → h.vertices.Nonempty) := by
  refine ⟨?_, ?_, ?_, ?_⟩
  · intro g
    rfl
  · intro g h S hok
    exact subgraph_ok_vertices hok
  · intro g h m hok
    exact contract_ok_vertices hok
  · intro g h hok
    exact copy_ok_vertices hok

/-- Witness for C10: the empty subgraph of the triangle fails, and a
concrete successful subgraph, contraction and copy are nonempty. -/
theorem C10_empty_subgraph_witness :
    wTri.subgraph ∅ = Except.error PyErr.invalidSize
    ∧ ({ size := 2, vertices := {1, 2}, edges := [(1, {2}), (2, {1})]
         edge_list := [(1, 2)] } : UndirectedGraph).vertices.Nonempty :=
  ⟨C10_empty_subgraph.1 wTri,
    C10_empty_subgraph.2.1 wTri _ {2, 3} (by decide)⟩

/-- Claim C6 (`copy` is a deep clone on every reachable state): evaluation
of the failing inputs. After `UndirectedGraph(2)` and `remove_node(1)` the
surviving vertex set is `{2}`, but `copy()` rebuilds from `self.size = 1`
and returns a graph with vertex set `{1}`; after `UndirectedGraph(1)` and
`remove_node(1)`, `copy()` raises `InvalidSize` instead of succeeding. -/
theorem C6_copy_divergence :
    UndirectedGraph.init 2 = Except.ok wTwo
    ∧ wTwo.remove_node 1 = Except.ok wOne2
    ∧ wOne2.copy = Except.ok
        { size := 1, vertices := {1}, edges := [(1, ∅)], edge_list := [] }
    ∧ ({ size := 1, vertices := {1}, edges := [(1, ∅)], edge_list := [] }
        : UndirectedGraph).vertices ≠ wOne2.vertices
    ∧ UndirectedGraph.init 1 = Except.ok wOneV
    ∧ wOneV.remove_node 1 = Except.ok wEmpty
    ∧ wEmpty.copy = Except.error PyErr.invalidSize := by
  refine ⟨by decide, by decide, by decide, by decide, by decide, by decide, by decide⟩

/-! ### Greedy matching lemmas (C4) -/

namespace UndirectedGraph

theorem mem_coveredOf (l : List (Nat × Nat)) (x : Nat) :
    x ∈ coveredOf l ↔ ∃ p ∈ l, x = p.1 ∨ x = p.2 := by
  induction l with
  | nil => simp [coveredOf]
  | cons p ps ih =>
    show x ∈ insert p.1 (insert p.2 (coveredOf ps)) ↔ _
    rw [Finset.mem_insert, Finset.mem_insert, ih]
    constructor
    · rintro (h | h | ⟨q, hq, hor⟩)
      · exact ⟨p, List.mem_cons_self p ps, Or.inl h⟩
      · exact ⟨p, List.mem_cons_self p ps, Or.inr h⟩
      · exact ⟨q, List.mem_cons_of_mem p hq, hor⟩
    · rintro ⟨q, hq, hor⟩
      rcases List.mem_cons.mp hq with rfl | hq'
      · tauto
      · exact Or.inr (Or.inr ⟨q, hq', hor⟩)

theorem card_coveredOf_le (l : List (Nat × Nat)) :
    (coveredOf l).card ≤ 2 * l.length := by
  induction l with
  | nil => simp [coveredOf]
  | cons p ps ih =>
    show (insert p.1 (insert p.2 (coveredOf ps))).card ≤ 2 * (ps.length + 1)
    calc (insert p.1 (insert p.2 (coveredOf ps))).card
        ≤ (insert p.2 (coveredOf ps)).card + 1 := Finset.card_insert_le _ _
      _ ≤ ((coveredOf ps).card + 1) + 1 :=
          Nat.add_le_add_right (Finset.card_insert_le _ _) 1
      _ ≤ (2 * ps.length + 1) + 1 :=
          Nat.add_le_add_right (Nat.add_le_add_right ih 1) 1
      _ ≤ 2 * (ps.length + 1) := by omega

theorem greedyMatch_subset {l : List (Nat × Nat)} {s : Finset Nat} {p : Nat × Nat}
    (h : p ∈ greedyMatch l s) : p ∈ l := by
  induction l generalizing s with
  | nil => simp [greedyMatch] at h
  | cons q qs ih =>
    rw [show greedyMatch (q :: qs) s
        = if q.1 ∉ s ∧ q.2 ∉ s then q :: greedyMatch qs (insert q.1 (insert q.2 s))
          else greedyMatch qs s from rfl] at h
    by_cases hq : q.1 ∉ s ∧ q.2 ∉ s
    · rw [if_pos hq] at h
      rcases List.mem_cons.mp h with rfl | h'
      · exact List.mem_cons_self p qs
      · exact List.mem_cons_of_mem q (ih h')
    · rw [if_neg hq] at h
      exact List.mem_cons_of_mem q (ih h)

theorem greedyMatch_avoid {l : List (Nat × Nat)} {s : Finset Nat} {p : Nat × Nat}
    (h : p ∈ greedyMatch l s) : p.1 ∉ s ∧ p.2 ∉ s := by
  induction l generalizing s with
  | nil => simp [greedyMatch] at h
  | cons q qs ih =>
    rw [show greedyMatch (q :: qs) s
        = if q.1 ∉ s ∧ q.2 ∉ s then q :: greedyMatch qs (insert q.1 (insert q.2 s))
          else greedyMatch qs s from rfl] at h
    by_cases hq : q.1 ∉ s ∧ q.2 ∉ s
    · rw [if_pos hq] at h
      rcases List.mem_cons.mp h with rfl | h'
      · exact hq
      · have := ih h'
        constructor
        · intro hc
          exact this.1 (Finset.mem_insert_of_mem (Finset.mem_insert_of_mem hc))
        · intro hc
          exact this.2 (Finset.mem_insert_of_mem (Finset.mem_insert_of_mem hc))
    · rw [if_neg hq] at h
      exact ih h

theorem greedyMatch_pairwise (l : List (Nat × Nat)) (s : Finset Nat) :
    (greedyMatch l s).Pairwise vdisj := by
  induction l generalizing s with
  | nil => exact List.Pairwise.nil
  | cons q qs ih =>
    rw [show greedyMatch (q :: qs) s
        = if q.1 ∉ s ∧ q.2 ∉ s then q :: greedyMatch qs (insert q.1 (insert q.2 s))
          else greedyMatch qs s from rfl]
    by_cases hq : q.1 ∉ s ∧ q.2 ∉ s
    · rw [if_pos hq]
      refine List.Pairwise.cons ?_ (ih _)
      intro r hr
      have havoid := greedyMatch_avoid hr
      refine ⟨?_, ?_, ?_, ?_⟩
      · intro hc
        exact havoid.1 (hc ▸ Finset.mem_insert_self q.1 _)
      · intro hc
        exact havoid.2 (hc ▸ Finset.mem_insert_self q.1 _)
      · intro hc
        exact havoid.1 (hc ▸ Finset.mem_insert_of_mem (Finset.mem_insert_self q.2 s))
      · intro hc
        exact havoid.2 (hc ▸ Finset.mem_insert_of_mem (Finset.mem_insert_self q.2 s))
    · rw [if_neg hq]
      exact ih s

theorem greedyMatch_maximal {l : List (Nat × Nat)} {s : Finset Nat} :
    ∀ p ∈ l, p.1 ∈ s ∨ p.2 ∈ s
      ∨ p.1 ∈ coveredOf (greedyMatch l s) ∨ p.2 ∈ coveredOf (greedyMatch l s) := by
  induction l generalizing s with
  | nil => intro p hp; simp at hp
  | cons q qs ih =>
    intro p hp
    rw [show greedyMatch (q :: qs) s
        = if q.1 ∉ s ∧ q.2 ∉ s then q :: greedyMatch qs (insert q.1 (insert q.2 s))
          else greedyMatch qs s from rfl]
    by_cases hq : q.1 ∉ s ∧ q.2 ∉ s
    · rw [if_pos hq]
      have hcov : ∀ x (m : List (Nat × Nat)), x ∈ coveredOf m → x ∈ coveredOf (q :: m) := by
        intro x m hx
        rw [mem_coveredOf] at hx ⊢
        obtain ⟨r, hr, hor⟩ := hx
        exact ⟨r, List.mem_cons_of_mem q hr, hor⟩
      rcases List.mem_cons.mp hp with rfl | hp'
      · refine Or.inr (Or.inr (Or.inl ?_))
        rw [mem_coveredOf]
        exact ⟨p, List.mem_cons_self p _, Or.inl rfl⟩
      · rcases ih p hp' with h | h | h | h
        · rcases Finset.mem_insert.mp h with h' | h'
          · refine Or.inr (Or.inr (Or.inl ?_))
            rw [mem_coveredOf]
            exact ⟨q, List.mem_cons_self q _, Or.inl h'⟩
          · rcases Finset.mem_insert.mp h' with h'' | h''
            · refine Or.inr (Or.inr (Or.inl ?_))
              rw [mem_coveredOf]
              exact ⟨q, List.mem_cons_self q _, Or.inr h''⟩
            · exact Or.inl h''
        · rcases Finset.mem_insert.mp h with h' | h'
          · refine Or.inr (Or.inr (Or.inr ?_))
            rw [mem_coveredOf]
            exact ⟨q, List.mem_cons_self q _, Or.inl h'⟩
          · rcases Finset.mem_insert.mp h' with h'' | h''
            · refine Or.inr (Or.inr (Or.inr ?_))
              rw [mem_coveredOf]
              exact ⟨q, List.mem_cons_self q _, Or.inr h''⟩
            · exact Or.inr (Or.inl h'')
        · exact Or.inr (Or.inr (Or.inl (hcov _ _ h)))
        · exact Or.inr (Or.inr (Or.inr (hcov _ _ h)))
    · rw [if_neg hq]
      rcases List.mem_cons.mp hp with rfl | hp'
      · rcases Decidable.not_and_iff_or_not.mp hq with h | h
        · exact Or.inl (Decidable.not_not.mp h)
        · exact Or.inr (Or.inl (Decidable.not_not.mp h))
      · exact ih p hp'

end UndirectedGraph

/-- Claim C4: `maximal_matching` returns pairs that are edges of the graph,
pairwise vertex-disjoint, and its size is at least half the size of any
matching of the graph (in particular of a maximum one). -/
theorem C4_maximal_matching (g : UndirectedGraph) (hwf : g.WellFormed) :
    (∀ p ∈ g.maximal_matching, p ∈ g.edge_list ∧ p.1 ≠ p.2)
    ∧ (g.maximal_matching).Pairwise vdisj
    ∧ (∀ M : Finset (Nat × Nat), (∀ p ∈ M, p ∈ g.edge_list)
        → ((M : Set (Nat × Nat)).Pairwise vdisj)
        → M.card ≤ 2 * (g.maximal_matching).length) := by
  refine ⟨?_, greedyMatch_pairwise g.edge_list ∅, ?_⟩
  · intro p hp
    have hmem : p ∈ g.edge_list := greedyMatch_subset hp
    exact ⟨hmem, Nat.ne_of_lt (hwf.list_to_adj p hmem).1⟩
  · intro M hMe hMd
    have hmax : ∀ p ∈ g.edge_list,
        p.1 ∈ coveredOf g.maximal_matching ∨ p.2 ∈ coveredOf g.maximal_matching := by
      intro p hp
      rcases greedyMatch_maximal p hp with h | h | h | h
      · exact absurd h (Finset.not_mem_empty _)
      · exact absurd h (Finset.not_mem_empty _)
      · exact Or.inl h
      · exact Or.inr h
    have hinj : M.card ≤ (coveredOf g.maximal_matching).card := by
      refine Finset.card_le_card_of_injOn
        (fun p => if p.1 ∈ coveredOf g.maximal_matching then p.1 else p.2) ?_ ?_
      · intro p hp
        show (if p.1 ∈ coveredOf g.maximal_matching then p.1 else p.2)
          ∈ coveredOf g.maximal_matching
        by_cases hc : p.1 ∈ coveredOf g.maximal_matching
        · rw [if_pos hc]
          exact hc
        · rw [if_neg hc]
          rcases hmax p (hMe p hp) with h | h
          · exact absurd h hc
          · exact h
      · intro p hp q hq hfq
        by_contra hne
        have hd := hMd hp hq hne
        have hfq' : (if p.1 ∈ coveredOf g.maximal_matching then p.1 else p.2)
            = (if q.1 ∈ coveredOf g.maximal_matching then q.1 else q.2) := hfq
        by_cases hc1 : p.1 ∈ coveredOf g.maximal_matching
        · rw [if_pos hc1] at hfq'
          by_cases hc2 : q.1 ∈ coveredOf g.maximal_matching
          · rw [if_pos hc2] at hfq'
            exact hd.1 hfq'
          · rw [if_neg hc2] at hfq'
            exact hd.2.1 hfq'
        · rw [if_neg hc1] at hfq'
          by_cases hc2 : q.1 ∈ coveredOf g.maximal_matching
          · rw [if_pos hc2] at hfq'
            exact hd.2.2.1 hfq'
          · rw [if_neg hc2] at hfq'
            exact hd.2.2.2 hfq' 
    exact Nat.le_trans hinj (card_coveredOf_le _)

/-- Witness for C4 on the path `1-2-3`: the greedy matching is `[(1,2)]` and
the matching `{(2,3)}` has size at most twice its length. -/
theorem C4_maximal_matching_witness :
    (∀ p ∈ wPath3.maximal_matching, p ∈ wPath3.edge_list ∧ p.1 ≠ p.2)
    ∧ (({((2 : Nat), (3 : Nat))} : Finset (Nat × Nat)).card
        ≤ 2 * (wPath3.maximal_matching).length) :=
  ⟨(C4_maximal_matching wPath3 (by decide)).1,
    (C4_maximal_matching wPath3 (by decide)).2.2 {(2, 3)} (by decide)
      (by simp [Set.pairwise_singleton])⟩

/-! ### Simplicial vertices and cycles (C5) -/

namespace UndirectedGraph

theorem mem_cycleEdges (n a b : Nat) :
    (a, b) ∈ cycleEdges n ↔ (b = a + 1 ∧ 1 ≤ a ∧ a < n) ∨ (a = 1 ∧ b = n) := by
  unfold cycleEdges
  rw [List.mem_append, List.mem_singleton]
  constructor
  · rintro (hmem | heq)
    · obtain ⟨i, hi, heq⟩ := List.mem_map.mp hmem
      rw [List.mem_range] at hi
      rw [Prod.mk.injEq] at heq
      left
      omega
    · rw [Prod.mk.injEq] at heq
      right
      omega
  · rintro (h | h)
    · left
      refine List.mem_map.mpr ⟨a - 1, List.mem_range.mpr (by omega), ?_⟩
      rw [Prod.mk.injEq]
      omega
    · right
      rw [Prod.mk.injEq]
      omega

theorem cycleGraph_spec (n : Nat) (hn : 2 ≤ n) :
    ∃ h, cycleGraph n = Except.ok h
      ∧ h.vertices = Finset.Icc 1 n
      ∧ ∀ a b, b ∈ h.adj a
          ↔ a ≠ b ∧ ((a, b) ∈ cycleEdges n ∨ (b, a) ∈ cycleEdges n) := by
  have h1 : 1 ≤ n := by omega
  have hbounds : ∀ p ∈ cycleEdges n,
      (1 ≤ p.1 ∧ p.1 ≤ n) ∧ (1 ≤ p.2 ∧ p.2 ≤ n) := by
    intro p hp
    have hp' : (p.1, p.2) ∈ cycleEdges n := hp
    rcases (mem_cycleEdges n p.1 p.2).mp hp' with h | h <;> omega
  obtain ⟨hnn, hs, hv, he, hel⟩ := init_vertices (init_ok h1)
  set g0 : UndirectedGraph :=
    { size := n
      vertices := Finset.Icc 1 n
      edges := (List.range n).map (fun i => (i + 1, ∅))
      edge_list := [] } with hg0
  have hkeys : g0.keysF = Finset.Icc 1 n := keysF_init (init_ok h1)
  have hadj0 : ∀ u, g0.adj u = ∅ := adj_init (init_ok h1)
  have hmemv : ∀ p ∈ cycleEdges n, p.1 ∈ g0.vertices ∧ p.2 ∈ g0.vertices := by
    intro p hp
    obtain ⟨ha, hb⟩ := hbounds p hp
    constructor <;> rw [Finset.mem_Icc] <;> omega
  have hok : cycleGraph n = Except.ok (addEdgesT g0 (cycleEdges n)) := by
    unfold cycleGraph
    rw [init_ok h1]
    show (cycleEdges n).foldlM (fun acc p => add_edge acc p.1 p.2) g0
      = Except.ok (addEdgesT g0 (cycleEdges n))
    exact foldlM_add_edge_ok _ _ hmemv
  refine ⟨addEdgesT g0 (cycleEdges n), hok, ?_, ?_⟩
  · rw [vertices_addEdgesT]
  · intro a b
    rw [adj_addEdgesT (cycleEdges n) g0 (by
      intro p hp
      rw [hkeys]
      obtain ⟨hpa, hpb⟩ := hbounds p hp
      constructor <;> rw [Finset.mem_Icc] <;> omega)]
    rw [hadj0 a]
    constructor
    · rintro (hb | ⟨p, hp, hne, (⟨rfl, rfl⟩ | ⟨rfl, rfl⟩)⟩)
      · exact absurd hb (Finset.not_mem_empty b)
      · exact ⟨hne, Or.inl hp⟩
      · exact ⟨fun hc => hne hc.symm, Or.inr hp⟩
    · rintro ⟨hne, (hp | hp)⟩
      · exact Or.inr ⟨(a, b), hp, hne, Or.inl ⟨rfl, rfl⟩⟩
      · exact Or.inr ⟨(b, a), hp, fun hc => hne hc.symm, Or.inr ⟨rfl, rfl⟩⟩

theorem cycle_simplicial_empty {n : Nat} (hn : 4 ≤ n) :
    ∃ h, cycleGraph n = Except.ok h ∧ h.get_simplicial_vertices = [] := by
  obtain ⟨h, hok, hv, hadj⟩ := cycleGraph_spec n (by omega)
  refine ⟨h, hok, ?_⟩
  unfold get_simplicial_vertices
  rw [List.filter_eq_nil_iff]
  intro u hu
  rw [mem_sortedList, hv, Finset.mem_Icc] at hu
  rw [decide_eq_true_eq]
  intro hsimp
  have hCE : ∀ a b, b ∈ h.adj a
      ↔ a ≠ b ∧ (((b = a + 1 ∧ 1 ≤ a ∧ a < n) ∨ (a = 1 ∧ b = n))
        ∨ ((a = b + 1 ∧ 1 ≤ b ∧ b < n) ∨ (b = 1 ∧ a = n))) := by
    intro a b
    rw [hadj a b, mem_cycleEdges, mem_cycleEdges]
  by_cases hu1 : u = 1
  · subst hu1
    have h2 : 2 ∈ h.adj 1 := (hCE 1 2).mpr (by omega)
    have hn' : n ∈ h.adj 1 := (hCE 1 n).mpr (by omega)
    have := hsimp 2 h2 n hn' (by omega)
    rw [hCE n 2] at this
    omega
  · by_cases hun : u = n
    · have h2 : u - 1 ∈ h.adj u := (hCE u (u - 1)).mpr (by omega)
      have h1' : 1 ∈ h.adj u := (hCE u 1).mpr (by omega)
      have := hsimp (u - 1) h2 1 h1' (by omega)
      rw [hCE 1 (u - 1)] at this
      omega
    · have hlt : 2 ≤ u ∧ u < n := by omega
      have hprev : u - 1 ∈ h.adj u := (hCE u (u - 1)).mpr (by omega)
      have hnext : u + 1 ∈ h.adj u := (hCE u (u + 1)).mpr (by omega)
      have := hsimp (u - 1) hprev (u + 1) hnext (by omega)
      rw [hCE (u + 1) (u - 1)] at this
      omega

end UndirectedGraph

/-- Claim C5: `get_simplicial_vertices` returns exactly the vertices whose
open neighborhood is pairwise adjacent (every pair of distinct neighbors is
itself an edge of the edge list), and on the cycle `1-2-...-n-1` with
`n ≥ 4` it returns the empty list. -/
theorem C5_simplicial_vertices :
    (∀ (g : UndirectedGraph) (u : Nat), g.WellFormed →
      (u ∈ g.get_simplicial_vertices
        ↔ u ∈ g.vertices
          ∧ ∀ v ∈ g.adj u, ∀ w ∈ g.adj u, v ≠ w → (min v w, max v w) ∈ g.edge_list))
    ∧ (∀ n : Nat, 4 ≤ n →
        ∃ h, UndirectedGraph.cycleGraph n = Except.ok h
          ∧ h.get_simplicial_vertices = []) := by
  constructor
  · intro g u hwf
    unfold UndirectedGraph.get_simplicial_vertices
    rw [List.mem_filter, mem_sortedList, decide_eq_true_eq]
    unfold UndirectedGraph.simplicialAt
    constructor
    · rintro ⟨hu, hcl⟩
      refine ⟨hu, ?_⟩
      intro v hv w hw hne
      rw [Nat.min_comm, Nat.max_comm]
      exact (hwf.edge_iff w v).mp (hcl v hv w hw hne)
    · rintro ⟨hu, hcl⟩
      refine ⟨hu, ?_⟩
      intro v hv w hw hne
      rw [hwf.edge_iff w v, Nat.min_comm w v, Nat.max_comm w v]
      exact hcl v hv w hw hne
  · intro n hn
    exact UndirectedGraph.cycle_simplicial_empty hn

/-- Witness for C5: vertex `1` of the triangle is simplicial, and the
4-cycle has no simplicial vertex. -/
theorem C5_simplicial_vertices_witness :
    (1 ∈ wTri.get_simplicial_vertices
      ↔ 1 ∈ wTri.vertices
        ∧ ∀ v ∈ wTri.adj 1, ∀ w ∈ wTri.adj 1, v ≠ w
          → (min v w, max v w) ∈ wTri.edge_list)
    ∧ (∃ h, UndirectedGraph.cycleGraph 4 = Except.ok h
        ∧ h.get_simplicial_vertices = []) :=
  ⟨C5_simplicial_vertices.1 wTri 1 (by decide),
    C5_simplicial_vertices.2 4 (by omega)⟩

/-! ### Numbering maps and fold flattening (C3, C1) -/

namespace UndirectedGraph

theorem length_sortedList (s : Finset Nat) : (sortedList s).length = s.card := by
  show _ = Multiset.card s.val
  unfold sortedList
  induction s.val using Quotient.inductionOn with
  | h l =>
    show (List.insertionSort (· ≤ ·) l).length = _
    rw [List.length_insertionSort]
    rfl

theorem alookup_assignFrom_of_mem {l : List Nat} {x : Nat} (c : Nat) (h : x ∈ l) :
    alookup (assignFrom c l) x = some (c + l.indexOf x) := by
  induction l generalizing c with
  | nil => simp at h
  | cons a as ih =>
    by_cases ha : a = x
    · subst ha
      show (if a = a then some c else _) = _
      rw [if_pos rfl, List.indexOf_cons_self]
      exact rfl
    · have hx : x ∈ as := by
        rcases List.mem_cons.mp h with h' | h'
        · exact absurd h'.symm ha
        · exact h'
      show (if a = x then _ else _) = _
      rw [if_neg ha, ih c.succ hx]
      have : List.indexOf x (a :: as) = List.indexOf x as + 1 :=
        List.indexOf_cons_ne as (by exact ha) ▸ rfl
      rw [this]
      congr 1
      omega

theorem alookup_assignFrom_of_not_mem {l : List Nat} {x : Nat} (c : Nat) (h : x ∉ l) :
    alookup (assignFrom c l) x = none := by
  induction l generalizing c with
  | nil => rfl
  | cons a as ih =>
    have ha : ¬ a = x := fun hc => h (hc ▸ List.mem_cons_self a as)
    show (if a = x then _ else _) = _
    rw [if_neg ha]
    exact ih c.succ (fun hc => h (List.mem_cons_of_mem a hc))

theorem foldlM_flatten {α β : Type} (inner : α → List β)
    (step : UndirectedGraph → β → Except PyErr UndirectedGraph) :
    ∀ (L : List α) (g : UndirectedGraph),
      L.foldlM (fun acc x => (inner x).foldlM step acc) g
        = (L.flatMap inner).foldlM step g := by
  intro L
  induction L with
  | nil => intro g; rfl
  | cons a as ih =>
    intro g
    rw [List.flatMap_cons, List.foldlM_append, List.foldlM_cons]
    show ((inner a).foldlM step g) >>= (fun g' =>
        as.foldlM (fun acc x => (inner x).foldlM step acc) g') = _
    cases hres : (inner a).foldlM step g with
    | ok g₁ =>
      show as.foldlM (fun acc x => (inner x).foldlM step acc) g₁ = _
      exact ih g₁
    | error e => rfl

theorem foldlM_skip_map {α : Type} (P : α → Prop) [DecidablePred P] (f : α → Nat × Nat) :
    ∀ (l : List α) (g : UndirectedGraph),
      l.foldlM (fun acc x =>
          if P x then pure acc else add_edge acc (f x).1 (f x).2) g
        = ((l.filter (fun x => decide (¬ P x))).map f).foldlM
            (fun acc p => add_edge acc p.1 p.2) g := by
  intro l
  induction l with
  | nil => intro g; rfl
  | cons a as ih =>
    intro g
    rw [List.foldlM_cons]
    by_cases hP : P a
    · rw [List.filter_cons_of_neg (by simp [hP]), if_pos hP, pure_bind]
      exact ih g
    · rw [List.filter_cons_of_pos (by simp [hP]), List.map_cons, List.foldlM_cons,
        if_neg hP]
      cases hres : add_edge g (f a).1 (f a).2 with
      | ok g₁ => exact ih g₁
      | error e => rfl

end UndirectedGraph

namespace UndirectedGraph

theorem subMap_of_mem {S : Finset Nat} {x : Nat} (hx : x ∈ S) :
    subMap S x = 1 + (sortedList S).indexOf x := by
  unfold subMap
  rw [alookup_assignFrom_of_mem 1 ((mem_sortedList S x).mpr hx)]
  rfl

theorem subMap_range {S : Finset Nat} {x : Nat} (hx : x ∈ S) :
    1 ≤ subMap S x ∧ subMap S x ≤ S.card := by
  rw [subMap_of_mem hx]
  have hlt : (sortedList S).indexOf x < (sortedList S).length :=
    List.indexOf_lt_length.mpr ((mem_sortedList S x).mpr hx)
  rw [length_sortedList] at hlt
  omega

theorem subMap_inj {S : Finset Nat} {x y : Nat} (hx : x ∈ S) (hy : y ∈ S)
    (h : subMap S x = subMap S y) : x = y := by
  rw [subMap_of_mem hx, subMap_of_mem hy] at h
  exact (List.indexOf_inj ((mem_sortedList S x).mpr hx)
    ((mem_sortedList S y).mpr hy)).mp (by omega)

theorem subgraph_eq (g : UndirectedGraph) (S : Finset Nat) :
    subgraph g S = (init S.card) >>= fun sub =>
      (subPairs g S).foldlM (fun acc p => add_edge acc p.1 p.2) sub := by
  unfold subgraph
  cases hinit : init S.card with
  | error e => rfl
  | ok sub =>
    show (sortedList S).foldlM _ sub
      = (subPairs g S).foldlM (fun acc p => add_edge acc p.1 p.2) sub
    have hfun : (fun (acc : UndirectedGraph) (node : Nat) =>
        (sortedList (g.adj node)).foldlM (fun acc2 neighbor =>
          if neighbor ∉ S then pure acc2
          else add_edge acc2 (subMap S node) (subMap S neighbor)) acc)
        = (fun acc node =>
          (((sortedList (g.adj node)).filter (fun nb => decide (nb ∈ S))).map
            (fun nb => (subMap S node, subMap S nb))).foldlM
              (fun acc p => add_edge acc p.1 p.2) acc) := by
      funext acc node
      rw [foldlM_skip_map (fun nb => nb ∉ S)
        (fun nb => (subMap S node, subMap S nb)) (sortedList (g.adj node)) acc]
      have hfilter : (sortedList (g.adj node)).filter (fun nb => decide (¬ nb ∉ S))
          = (sortedList (g.adj node)).filter (fun nb => decide (nb ∈ S)) := by
        apply List.filter_congr
        intro nb hnb
        simp
      rw [hfilter]
    rw [hfun]
    exact foldlM_flatten _ _ (sortedList S) sub

theorem mem_subPairs {g : UndirectedGraph} {S : Finset Nat} {p : Nat × Nat} :
    p ∈ subPairs g S
      ↔ ∃ x ∈ S, ∃ y ∈ S, y ∈ g.adj x ∧ p = (subMap S x, subMap S y) := by
  unfold subPairs
  rw [List.mem_flatMap]
  constructor
  · rintro ⟨x, hx, hp⟩
    obtain ⟨y, hy, hpy⟩ := List.mem_map.mp hp
    obtain ⟨hy1, hy2⟩ := List.mem_filter.mp hy
    rw [mem_sortedList] at hy1
    rw [decide_eq_true_eq] at hy2
    exact ⟨x, (mem_sortedList S x).mp hx, y, hy2, hy1, hpy.symm⟩
  · rintro ⟨x, hx, y, hy, hyadj, rfl⟩
    refine ⟨x, (mem_sortedList S x).mpr hx, ?_⟩
    refine List.mem_map.mpr ⟨y, ?_, rfl⟩
    rw [List.mem_filter, mem_sortedList, decide_eq_true_eq]
    exact ⟨hyadj, hy⟩

end UndirectedGraph

/-- Claim C3 counterexample: the claim quantifies over every subset of the
vertex set, but `subgraph(∅)` on a reachable two-vertex graph raises
`InvalidSize` (the constructor rejects a vertex count below 1) instead of
returning a graph. -/
theorem C3_subgraph_counterexample :
    wK2.subgraph ∅ = Except.error PyErr.invalidSize ∧ Reachable wK2 :=
  ⟨rfl, wK2_reachable⟩

/-- Claim C3 (amended): for every well-formed graph and nonempty subset `S`
of its vertices, `subgraph(S)` returns a graph whose vertices are exactly
`1..|S|` (S renumbered densely from 1 by the internal `mapping`), whose
adjacency is exactly the adjacency of `g` restricted to `S` transported
along that renumbering; the mapping (`subMap`) is computed internally but
only the graph is returned. -/
theorem C3_subgraph_spec (g : UndirectedGraph) (S : Finset Nat)
    (hwf : g.WellFormed) (hsub : S ⊆ g.vertices) (hne : S.Nonempty) :
    ∃ h, g.subgraph S = Except.ok h
      ∧ h.size = S.card
      ∧ h.vertices = Finset.Icc 1 S.card
      ∧ ∀ a b, b ∈ h.adj a
          ↔ ∃ x ∈ S, ∃ y ∈ S, y ∈ g.adj x
              ∧ a = subMap S x ∧ b = subMap S y := by
  have hcard : 1 ≤ S.card := Finset.card_pos.mpr hne
  obtain ⟨-, hs0, hv0, he0, hel0⟩ := init_vertices (init_ok hcard)
  set sub0 : UndirectedGraph :=
    { size := S.card
      vertices := Finset.Icc 1 S.card
      edges := (List.range S.card).map (fun i => (i + 1, ∅))
      edge_list := [] } with hsub0
  have hkeys0 : sub0.keysF = Finset.Icc 1 S.card := keysF_init (init_ok hcard)
  have hadj0 : ∀ u, sub0.adj u = ∅ := adj_init (init_ok hcard)
  have hpair_mem : ∀ p ∈ subPairs g S,
      p.1 ∈ Finset.Icc 1 S.card ∧ p.2 ∈ Finset.Icc 1 S.card := by
    intro p hp
    obtain ⟨x, hx, y, hy, -, rfl⟩ := mem_subPairs.mp hp
    obtain ⟨h1, h2⟩ := subMap_range hx
    obtain ⟨h3, h4⟩ := subMap_range hy
    constructor <;> rw [Finset.mem_Icc] <;> omega
  have hok : g.subgraph S = Except.ok (addEdgesT sub0 (subPairs g S)) := by
    rw [subgraph_eq, init_ok hcard]
    show (subPairs g S).foldlM (fun acc p => add_edge acc p.1 p.2) sub0 = _
    refine foldlM_add_edge_ok _ _ ?_
    intro p hp
    show p.1 ∈ sub0.vertices ∧ p.2 ∈ sub0.vertices
    rw [hsub0]
    exact hpair_mem p hp
  refine ⟨addEdgesT sub0 (subPairs g S), hok, ?_, ?_, ?_⟩
  · rw [size_addEdgesT]
  · rw [vertices_addEdgesT]
  · intro a b
    rw [adj_addEdgesT (subPairs g S) sub0 (by
      intro p hp
      rw [hkeys0]
      exact hpair_mem p hp)]
    rw [hadj0 a]
    constructor
    · rintro (hb | ⟨p, hp, hnp, hor⟩)
      · exact absurd hb (Finset.not_mem_empty b)
      · obtain ⟨x, hx, y, hy, hyadj, rfl⟩ := mem_subPairs.mp hp
        rcases hor with ⟨ha, hb⟩ | ⟨ha, hb⟩
        · exact ⟨x, hx, y, hy, hyadj, ha, hb⟩
        · exact ⟨y, hy, x, hx, (hwf.adj_comm x y).mp hyadj, ha, hb⟩
    · rintro ⟨x, hx, y, hy, hyadj, rfl, rfl⟩
      refine Or.inr ⟨(subMap S x, subMap S y), ?_, ?_, Or.inl ⟨rfl, rfl⟩⟩
      · exact mem_subPairs.mpr ⟨x, hx, y, hy, hyadj, rfl⟩
      · show subMap S x ≠ subMap S y
        intro hc
        have hxy : x = y := subMap_inj hx hy hc
        exact hwf.no_self x (hsub hx) (hxy ▸ hyadj)

/-- Witness for C3: the induced subgraph of the triangle on `{2, 3}`. -/
theorem C3_subgraph_spec_witness :
    ∃ h, wTri.subgraph {2, 3} = Except.ok h
      ∧ h.size = ({2, 3} : Finset Nat).card
      ∧ h.vertices = Finset.Icc 1 (({2, 3} : Finset Nat).card)
      ∧ (2 ∈ h.adj 1
          ↔ ∃ x ∈ ({2, 3} : Finset Nat), ∃ y ∈ ({2, 3} : Finset Nat),
              y ∈ wTri.adj x ∧ 1 = subMap {2, 3} x ∧ 2 = subMap {2, 3} y) := by
  obtain ⟨h, h1, h2, h3, h4⟩ :=
    C3_subgraph_spec wTri {2, 3} (by decide) (by decide) (by decide)
  exact ⟨h, h1, h2, h3, h4 1 2⟩

/-! ### Contraction lemmas (C1) -/

namespace UndirectedGraph

theorem matchKey_iff (m : List (Nat × Nat)) (x : Nat) :
    matchKey m x = true ↔ ∃ p ∈ m, p.1 = x := by
  unfold matchKey
  rw [List.any_eq_true]
  constructor
  · rintro ⟨p, hp, hdec⟩
    exact ⟨p, hp, by simpa using hdec⟩
  · rintro ⟨p, hp, heq⟩
    exact ⟨p, hp, by simpa using heq⟩

theorem matchVal_of_mem : ∀ {m : List (Nat × Nat)} {p : Nat × Nat},
    m.Pairwise vdisj → p ∈ m → matchVal m p.1 = p.2 := by
  intro m
  induction m with
  | nil =>
    intro p _ hp
    simp at hp
  | cons q qs ih =>
    intro p hpd hp
    rcases List.mem_cons.mp hp with rfl | hp'
    · unfold matchVal
      rw [List.find?_cons_of_pos _ (by simp)]
      rfl
    · have hne : ¬ (q.1 = p.1) :=
        ((List.pairwise_cons.mp hpd).1 p hp').1
      unfold matchVal
      rw [List.find?_cons_of_neg _ (by simp [hne])]
      exact ih (List.pairwise_cons.mp hpd).2 hp'

theorem mem_edges_iff {g : UndirectedGraph} (hwf : g.WellFormed)
    {e : Nat × Finset Nat} :
    e ∈ g.edges ↔ e.1 ∈ g.vertices ∧ e.2 = g.adj e.1 := by
  constructor
  · intro he
    have hl : alookup g.edges e.1 = some e.2 := mem_alookup hwf.keys_nodup he
    constructor
    · rw [← hwf.keysF_eq]
      unfold keysF
      rw [List.mem_toFinset]
      exact List.mem_map.mpr ⟨e, he, rfl⟩
    · unfold adj
      rw [hl]
      rfl
  · rintro ⟨hv, hadj⟩
    have hkey : e.1 ∈ g.edges.map Prod.fst := by
      rw [← List.mem_toFinset]
      show e.1 ∈ g.keysF
      rw [hwf.keysF_eq]
      exact hv
    rcases hl : alookup g.edges e.1 with - | s
    · exact absurd ((alookup_eq_none _ _).mp hl) (by simpa using hkey)
    · have hmem := alookup_mem hl
      have hse : s = e.2 := by
        rw [hadj]
        unfold adj
        rw [hl]
        rfl
      rw [hse] at hmem
      exact hmem

theorem unmatchedList_facts {g : UndirectedGraph} {m : List (Nat × Nat)}
    (hwf : g.WellFormed) (hvm : ValidMatching g m) :
    ((sortedList g.vertices).filter (fun i => ¬ matchKey m i)).Nodup
    ∧ (∀ x, x ∈ (sortedList g.vertices).filter (fun i => ¬ matchKey m i)
        ↔ x ∈ g.vertices ∧ matchKey m x = false)
    ∧ ((sortedList g.vertices).filter (fun i => ¬ matchKey m i)).length
        = g.size - m.length := by
  obtain ⟨hedge, hpd⟩ := hvm
  have hFnodup : (m.map Prod.fst).Nodup := by
    show (m.map Prod.fst).Pairwise (· ≠ ·)
    exact List.Pairwise.map Prod.fst (fun a b hab => hab.1) hpd
  have hFsub : (m.map Prod.fst).toFinset ⊆ g.vertices := by
    intro x hx
    rw [List.mem_toFinset] at hx
    obtain ⟨p, hp, rfl⟩ := List.mem_map.mp hx
    exact (hwf.mem_of_adj (hedge p hp).2).1
  have hmemU : ∀ x, x ∈ (sortedList g.vertices).filter (fun i => ¬ matchKey m i)
      ↔ x ∈ g.vertices ∧ matchKey m x = false := by
    intro x
    rw [List.mem_filter, mem_sortedList]
    constructor
    · rintro ⟨h1, h2⟩
      refine ⟨h1, ?_⟩
      rcases hb : matchKey m x with - | -
      · rfl
      · rw [hb] at h2
        simp at h2
    · rintro ⟨h1, h2⟩
      exact ⟨h1, by simp [h2]⟩
  have hUnodup : ((sortedList g.vertices).filter (fun i => ¬ matchKey m i)).Nodup :=
    (nodup_sortedList g.vertices).filter _
  refine ⟨hUnodup, hmemU, ?_⟩
  have htF : ((sortedList g.vertices).filter (fun i => ¬ matchKey m i)).toFinset
      = g.vertices \ (m.map Prod.fst).toFinset := by
    ext x
    rw [List.mem_toFinset, hmemU x, Finset.mem_sdiff, List.mem_toFinset]
    constructor
    · rintro ⟨h1, h2⟩
      refine ⟨h1, ?_⟩
      intro hc
      obtain ⟨p, hp, rfl⟩ := List.mem_map.mp hc
      have : matchKey m p.1 = true := (matchKey_iff m p.1).mpr ⟨p, hp, rfl⟩
      rw [this] at h2
      exact absurd h2 (by simp)
    · rintro ⟨h1, h2⟩
      refine ⟨h1, ?_⟩
      rcases hb : matchKey m x with - | -
      · rfl
      · obtain ⟨p, hp, hpx⟩ := (matchKey_iff m x).mp hb
        exact absurd (List.mem_map.mpr ⟨p, hp, hpx⟩) h2
  have hlen := List.toFinset_card_of_nodup hUnodup
  rw [htF] at hlen
  rw [← hlen, Finset.card_sdiff hFsub, List.toFinset_card_of_nodup hFnodup,
    List.length_map, hwf.size_eq]

end UndirectedGraph

namespace UndirectedGraph

theorem vdisj_symm {p q : Nat × Nat} (h : vdisj p q) : vdisj q p :=
  ⟨fun hc => h.1 hc.symm, fun hc => h.2.2.1 hc.symm,
    fun hc => h.2.1 hc.symm, fun hc => h.2.2.2 hc.symm⟩

theorem pairwise_vdisj_forall {m : List (Nat × Nat)} (hpd : m.Pairwise vdisj) :
    ∀ p ∈ m, ∀ q ∈ m, p ≠ q → vdisj p q := by
  intro p hp q hq hne
  exact List.Pairwise.forall (fun a b hab => vdisj_symm hab) hpd hp hq hne

theorem matchKey_snd_false {g : UndirectedGraph} {m : List (Nat × Nat)}
    (hvm : ValidMatching g m) {p : Nat × Nat} (hp : p ∈ m) :
    matchKey m p.2 = false := by
  rcases hb : matchKey m p.2 with - | -
  · rfl
  · obtain ⟨q, hq, hq2⟩ := (matchKey_iff m p.2).mp hb
    by_cases hpq : p = q
    · subst hpq
      exact absurd (hq2 ▸ rfl) (hvm.1 p hp).1.symm
    · have hd := pairwise_vdisj_forall hvm.2 p hp q hq hpq
      exact absurd hq2.symm hd.2.2.1

theorem repOf_fst {g : UndirectedGraph} {m : List (Nat × Nat)}
    (hvm : ValidMatching g m) {p : Nat × Nat} (hp : p ∈ m) :
    repOf m p.1 = p.2 := by
  unfold repOf
  rw [if_pos ((matchKey_iff m p.1).mpr ⟨p, hp, rfl⟩)]
  exact matchVal_of_mem hvm.2 hp

theorem repOf_snd {g : UndirectedGraph} {m : List (Nat × Nat)}
    (hvm : ValidMatching g m) {p : Nat × Nat} (hp : p ∈ m) :
    repOf m p.2 = p.2 := by
  unfold repOf
  rw [if_neg (by rw [matchKey_snd_false hvm hp]; simp)]

theorem repOf_unmatched {m : List (Nat × Nat)} {x : Nat}
    (hx : matchKey m x = false) : repOf m x = x := by
  unfold repOf
  rw [if_neg (by rw [hx]; simp)]

theorem repOf_preimage {m : List (Nat × Nat)} (hpd : m.Pairwise vdisj) {z w : Nat}
    (h : repOf m z = w) : z = w ∨ ∃ p ∈ m, p.1 = z ∧ p.2 = w := by
  unfold repOf at h
  by_cases hk : matchKey m z = true
  · rw [if_pos hk] at h
    obtain ⟨p, hp, hpz⟩ := (matchKey_iff m z).mp hk
    right
    refine ⟨p, hp, hpz, ?_⟩
    rw [← h, ← hpz]
    exact (matchVal_of_mem hpd hp).symm
  · rw [if_neg hk] at h
    exact Or.inl h

theorem newIdFun_eq_rep (g : UndirectedGraph) (m : List (Nat × Nat)) (x : Nat) :
    newIdFun g m x = newIdOf g m (repOf m x) := by
  unfold newIdFun repOf
  by_cases h : matchKey m x = true
  · rw [if_pos h, if_pos h]
  · rw [if_neg h, if_neg h]

theorem repOf_mem_vertices {g : UndirectedGraph} {m : List (Nat × Nat)}
    (hwf : g.WellFormed) (hvm : ValidMatching g m) {x : Nat} (hx : x ∈ g.vertices) :
    repOf m x ∈ g.vertices ∧ matchKey m (repOf m x) = false := by
  by_cases hk : matchKey m x = true
  · obtain ⟨p, hp, hpz⟩ := (matchKey_iff m x).mp hk
    have hrep : repOf m x = p.2 := by
      rw [← hpz]
      exact repOf_fst hvm hp
    rw [hrep]
    exact ⟨(hwf.mem_of_adj (hvm.1 p hp).2).2, matchKey_snd_false hvm hp⟩
  · have hk' : matchKey m x = false := by
      rcases hb : matchKey m x with - | -
      · rfl
      · exact absurd hb hk
    rw [repOf_unmatched hk']
    exact ⟨hx, hk'⟩

theorem newIdOf_of_mem {g : UndirectedGraph} {m : List (Nat × Nat)} {x : Nat}
    (hx : x ∈ (sortedList g.vertices).filter (fun i => ¬ matchKey m i)) :
    newIdOf g m x
      = 1 + ((sortedList g.vertices).filter (fun i => ¬ matchKey m i)).indexOf x := by
  unfold newIdOf newIds
  rw [alookup_assignFrom_of_mem 1 hx]
  rfl

theorem newIdOf_range {g : UndirectedGraph} {m : List (Nat × Nat)} {x : Nat}
    (hx : x ∈ (sortedList g.vertices).filter (fun i => ¬ matchKey m i)) :
    1 ≤ newIdOf g m x
      ∧ newIdOf g m x
          ≤ ((sortedList g.vertices).filter (fun i => ¬ matchKey m i)).length := by
  rw [newIdOf_of_mem hx]
  have := List.indexOf_lt_length.mpr hx
  omega

theorem newIdOf_inj {g : UndirectedGraph} {m : List (Nat × Nat)} {x y : Nat}
    (hx : x ∈ (sortedList g.vertices).filter (fun i => ¬ matchKey m i))
    (hy : y ∈ (sortedList g.vertices).filter (fun i => ¬ matchKey m i))
    (h : newIdOf g m x = newIdOf g m y) : x = y := by
  rw [newIdOf_of_mem hx, newIdOf_of_mem hy] at h
  exact (List.indexOf_inj hx hy).mp (by omega)

theorem repOf_mem_filter {g : UndirectedGraph} {m : List (Nat × Nat)}
    (hwf : g.WellFormed) (hvm : ValidMatching g m) {x : Nat} (hx : x ∈ g.vertices) :
    repOf m x ∈ (sortedList g.vertices).filter (fun i => ¬ matchKey m i) := by
  obtain ⟨-, hmem, -⟩ := unmatchedList_facts hwf hvm
  obtain ⟨h1, h2⟩ := repOf_mem_vertices hwf hvm hx
  exact (hmem _).mpr ⟨h1, h2⟩

theorem newIdFun_eq_iff {g : UndirectedGraph} {m : List (Nat × Nat)}
    (hwf : g.WellFormed) (hvm : ValidMatching g m) {x z : Nat}
    (hx : x ∈ g.vertices) (hz : z ∈ g.vertices) :
    newIdFun g m x = newIdFun g m z ↔ repOf m x = repOf m z := by
  rw [newIdFun_eq_rep, newIdFun_eq_rep]
  constructor
  · intro h
    exact newIdOf_inj (repOf_mem_filter hwf hvm hx) (repOf_mem_filter hwf hvm hz) h
  · intro h
    rw [h]

theorem newIdFun_range {g : UndirectedGraph} {m : List (Nat × Nat)}
    (hwf : g.WellFormed) (hvm : ValidMatching g m) {x : Nat} (hx : x ∈ g.vertices) :
    1 ≤ newIdFun g m x ∧ newIdFun g m x ≤ g.size - m.length := by
  obtain ⟨-, -, hlen⟩ := unmatchedList_facts hwf hvm
  rw [newIdFun_eq_rep]
  have := newIdOf_range (repOf_mem_filter hwf hvm hx)
  omega

end UndirectedGraph

namespace UndirectedGraph

theorem contract_eq (g : UndirectedGraph) (m : List (Nat × Nat)) :
    contract_graph g m = (init (g.size - m.length)) >>= fun h =>
      (contractPairs g m).foldlM (fun acc p => add_edge acc p.1 p.2) h := by
  unfold contract_graph
  cases hinit : init (g.size - m.length) with
  | error e => rfl
  | ok h =>
    show g.edges.foldlM _ h
      = (contractPairs g m).foldlM (fun acc p => add_edge acc p.1 p.2) h
    have hfun : (fun (acc : UndirectedGraph) (entry : Nat × Finset Nat) =>
        (sortedList entry.2).foldlM (fun acc2 neigh =>
          if (entry.1, neigh) ∈ m then pure acc2
          else add_edge acc2 (newIdFun g m entry.1) (newIdFun g m neigh)) acc)
        = (fun acc entry =>
          (((sortedList entry.2).filter (fun n => decide ((entry.1, n) ∉ m))).map
            (fun n => (newIdFun g m entry.1, newIdFun g m n))).foldlM
              (fun acc p => add_edge acc p.1 p.2) acc) := by
      funext acc entry
      rw [foldlM_skip_map (fun n => (entry.1, n) ∈ m)
        (fun n => (newIdFun g m entry.1, newIdFun g m n)) (sortedList entry.2) acc]
    rw [hfun]
    exact foldlM_flatten _ _ g.edges h

theorem mem_contractPairs {g : UndirectedGraph} {m : List (Nat × Nat)}
    (hwf : g.WellFormed) {p : Nat × Nat} :
    p ∈ contractPairs g m
      ↔ ∃ x ∈ g.vertices, ∃ y ∈ g.adj x, (x, y) ∉ m
          ∧ p = (newIdFun g m x, newIdFun g m y) := by
  unfold contractPairs
  rw [List.mem_flatMap]
  constructor
  · rintro ⟨entry, hentry, hp⟩
    obtain ⟨hx, hadj⟩ := (mem_edges_iff hwf).mp hentry
    obtain ⟨nb, hnb, hpnb⟩ := List.mem_map.mp hp
    obtain ⟨hnb1, hnb2⟩ := List.mem_filter.mp hnb
    rw [mem_sortedList] at hnb1
    rw [hadj] at hnb1
    rw [decide_eq_true_eq] at hnb2
    exact ⟨entry.1, hx, nb, hnb1, hnb2, hpnb.symm⟩
  · rintro ⟨x, hx, y, hy, hnm, rfl⟩
    refine ⟨(x, g.adj x), (mem_edges_iff hwf).mpr ⟨hx, rfl⟩, ?_⟩
    refine List.mem_map.mpr ⟨y, ?_, rfl⟩
    rw [List.mem_filter, mem_sortedList, decide_eq_true_eq]
    exact ⟨hy, hnm⟩

end UndirectedGraph

namespace UndirectedGraph

theorem contract_adj_char {g : UndirectedGraph} {m : List (Nat × Nat)}
    (hwf : g.WellFormed) (hvm : ValidMatching g m) (hne : g.vertices.Nonempty) :
    ∃ h, contract_graph g m = Except.ok h
      ∧ h.size = g.size - m.length
      ∧ h.vertices = Finset.Icc 1 (g.size - m.length)
      ∧ ∀ a b, b ∈ h.adj a
          ↔ a ≠ b ∧ ∃ x ∈ g.vertices, ∃ y ∈ g.adj x,
              a = newIdFun g m x ∧ b = newIdFun g m y := by
  obtain ⟨x₀, hx₀⟩ := hne
  have hpos : 1 ≤ g.size - m.length := by
    obtain ⟨-, -, hlen⟩ := unmatchedList_facts hwf hvm
    have hmem := repOf_mem_filter hwf hvm hx₀
    have : 0 < ((sortedList g.vertices).filter (fun i => ¬ matchKey m i)).length :=
      List.length_pos_of_mem hmem
    omega
  obtain ⟨-, hs0, hv0, he0, hel0⟩ := init_vertices (init_ok hpos)
  set h0 : UndirectedGraph :=
    { size := g.size - m.length
      vertices := Finset.Icc 1 (g.size - m.length)
      edges := (List.range (g.size - m.length)).map (fun i => (i + 1, ∅))
      edge_list := [] } with hh0
  have hkeys0 : h0.keysF = Finset.Icc 1 (g.size - m.length) := keysF_init (init_ok hpos)
  have hadj0 : ∀ u, h0.adj u = ∅ := adj_init (init_ok hpos)
  have hpair_mem : ∀ p ∈ contractPairs g m,
      p.1 ∈ Finset.Icc 1 (g.size - m.length)
        ∧ p.2 ∈ Finset.Icc 1 (g.size - m.length) := by
    intro p hp
    obtain ⟨x, hx, y, hy, -, rfl⟩ := (mem_contractPairs hwf).mp hp
    obtain ⟨h1, h2⟩ := newIdFun_range hwf hvm hx
    obtain ⟨h3, h4⟩ := newIdFun_range hwf hvm (hwf.mem_of_adj hy).2
    constructor <;> rw [Finset.mem_Icc] <;> omega
  have hok : contract_graph g m = Except.ok (addEdgesT h0 (contractPairs g m)) := by
    rw [contract_eq, init_ok hpos]
    show (contractPairs g m).foldlM (fun acc p => add_edge acc p.1 p.2) h0 = _
    refine foldlM_add_edge_ok _ _ ?_
    intro p hp
    show p.1 ∈ h0.vertices ∧ p.2 ∈ h0.vertices
    rw [hh0]
    exact hpair_mem p hp
  refine ⟨addEdgesT h0 (contractPairs g m), hok, ?_, ?_, ?_⟩
  · rw [size_addEdgesT]
  · rw [vertices_addEdgesT]
  · intro a b
    rw [adj_addEdgesT (contractPairs g m) h0 (by
      intro p hp
      rw [hkeys0]
      exact hpair_mem p hp)]
    rw [hadj0 a]
    constructor
    · rintro (hb | ⟨p, hp, hnp, hor⟩)
      · exact absurd hb (Finset.not_mem_empty b)
      · obtain ⟨x, hx, y, hy, hnm, rfl⟩ := (mem_contractPairs hwf).mp hp
        rcases hor with ⟨ha, hb⟩ | ⟨ha, hb⟩
        · subst ha
          subst hb
          exact ⟨hnp, x, hx, y, hy, rfl, rfl⟩
        · subst ha
          subst hb
          exact ⟨fun hc => hnp hc.symm, y, (hwf.mem_of_adj hy).2, x,
            (hwf.adj_comm x y).mp hy, rfl, rfl⟩
    · rintro ⟨hab, x, hx, y, hy, rfl, rfl⟩
      have hnm : (x, y) ∉ m := by
        intro hc
        apply hab
        rw [newIdFun_eq_rep, newIdFun_eq_rep,
          repOf_fst hvm hc, repOf_snd hvm hc]
      refine Or.inr ⟨(newIdFun g m x, newIdFun g m y), ?_, hab, Or.inl ⟨rfl, rfl⟩⟩
      exact (mem_contractPairs hwf).mpr ⟨x, hx, y, hy, hnm, rfl⟩

end UndirectedGraph

/-- Claim C1 counterexample: the claim quantifies over every graph and every
matching, but on the reachable empty graph (built by `UndirectedGraph(1)`
then `remove_node(1)`), `contract_graph` with the empty matching raises
`InvalidSize` (it builds `UndirectedGraph(0 - 0)`) instead of returning a
graph with `0 - |matching| = 0` vertices. -/
theorem C1_contract_counterexample :
    UndirectedGraph.init 1 = Except.ok wOneV
    ∧ wOneV.remove_node 1 = Except.ok wEmpty
    ∧ wEmpty.contract_graph [] = Except.error PyErr.invalidSize :=
  ⟨by decide, by decide, by decide⟩

/-- Claim C1 (amended): on a well-formed nonempty graph, contracting a
matching over the current edges yields a graph on `1..(size - |matching|)`;
each matched pair `(u,v)` collapses onto the single new id `newIdFun v`,
whose neighborhood is the image under the internal old-to-new map of
`(N(u) ∪ N(v)) \ {u,v}`; every vertex not touched by the matching keeps its
own fresh id (the map is injective on untouched vertices) with neighborhood
the image of its old one; no self-loop is created. The old-to-new map
(`newIdFun`) is computed internally but only the graph is returned. -/
theorem C1_contract_graph (g : UndirectedGraph) (m : List (Nat × Nat))
    (hwf : g.WellFormed) (hvm : ValidMatching g m) (hne : g.vertices.Nonempty) :
    ∃ h, g.contract_graph m = Except.ok h
      ∧ h.size = g.size - m.length
      ∧ h.vertices = Finset.Icc 1 (g.size - m.length)
      ∧ (∀ p ∈ m, h.adj (newIdFun g m p.2)
          = ((g.adj p.1 ∪ g.adj p.2) \ {p.1, p.2}).image (newIdFun g m))
      ∧ (∀ w ∈ g.vertices, matchKey m w = false → (∀ p ∈ m, w ≠ p.2) →
          h.adj (newIdFun g m w) = (g.adj w).image (newIdFun g m))
      ∧ (∀ w z, w ∈ g.vertices → z ∈ g.vertices
          → matchKey m w = false → (∀ p ∈ m, w ≠ p.2)
          → matchKey m z = false → (∀ p ∈ m, z ≠ p.2)
          → newIdFun g m w = newIdFun g m z → w = z)
      ∧ (∀ x, x ∉ h.adj x) := by
  obtain ⟨h, hok, hsize, hvert, hchar⟩ := contract_adj_char hwf hvm hne
  have hsnd_unique : ∀ p ∈ m, ∀ q ∈ m, q.2 = p.2 → q = p := by
    intro p hp q hq hqp
    by_contra hc
    exact (pairwise_vdisj_forall hvm.2 p hp q hq (fun he => hc he.symm)).2.2.2 hqp.symm
  refine ⟨h, hok, hsize, hvert, ?_, ?_, ?_, ?_⟩
  · intro p hp
    have huv := hvm.1 p hp
    have hu : p.1 ∈ g.vertices := (hwf.mem_of_adj huv.2).1
    have hv : p.2 ∈ g.vertices := (hwf.mem_of_adj huv.2).2
    have hrep1 : repOf m p.1 = p.2 := repOf_fst hvm hp
    have hrep2 : repOf m p.2 = p.2 := repOf_snd hvm hp
    have hnf : newIdFun g m p.1 = newIdFun g m p.2 := by
      rw [newIdFun_eq_rep, newIdFun_eq_rep, hrep1, hrep2]
    have hpre : ∀ x ∈ g.vertices, newIdFun g m x = newIdFun g m p.2
        → x = p.1 ∨ x = p.2 := by
      intro x hx hfx
      have hrx : repOf m x = p.2 := by
        have := (newIdFun_eq_iff hwf hvm hx hv).mp hfx
        rw [hrep2] at this
        exact this
      rcases repOf_preimage hvm.2 hrx with h' | ⟨q, hq, hq1, hq2⟩
      · exact Or.inr h'
      · have hqp : q = p := hsnd_unique p hp q hq hq2
        subst hqp
        exact Or.inl hq1.symm
    ext b
    rw [hchar (newIdFun g m p.2) b, Finset.mem_image]
    constructor
    · rintro ⟨hab, x, hx, y, hy, hax, rfl⟩
      refine ⟨y, ?_, rfl⟩
      rw [Finset.mem_sdiff, Finset.mem_union]
      have hxuv : x = p.1 ∨ x = p.2 := hpre x hx hax.symm
      constructor
      · rcases hxuv with rfl | rfl
        · exact Or.inl hy
        · exact Or.inr hy
      · intro hyc
        apply hab
        rw [Finset.mem_insert, Finset.mem_singleton] at hyc
        rcases hyc with rfl | rfl
        · rw [← hnf]
        · rfl
    · rintro ⟨w, hw, rfl⟩
      rw [Finset.mem_sdiff, Finset.mem_union, Finset.mem_insert,
        Finset.mem_singleton] at hw
      obtain ⟨hwadj, hwn⟩ := hw
      have hwv : w ∈ g.vertices := by
        rcases hwadj with h' | h'
        · exact (hwf.mem_of_adj h').2
        · exact (hwf.mem_of_adj h').2
      refine ⟨?_, ?_⟩
      · intro hc
        rcases hpre w hwv hc.symm with h' | h'
        · exact hwn (Or.inl h')
        · exact hwn (Or.inr h')
      · rcases hwadj with h' | h'
        · exact ⟨p.1, hu, w, h', hnf.symm, rfl⟩
        · exact ⟨p.2, hv, w, h', rfl, rfl⟩
  · intro w hwv hk1 hk2
    have hrw : repOf m w = w := repOf_unmatched hk1
    have hpre : ∀ x ∈ g.vertices, newIdFun g m x = newIdFun g m w → x = w := by
      intro x hx hfx
      have hrx : repOf m x = w := by
        have := (newIdFun_eq_iff hwf hvm hx hwv).mp hfx
        rw [hrw] at this
        exact this
      rcases repOf_preimage hvm.2 hrx with h' | ⟨q, hq, hq1, hq2⟩
      · exact h'
      · exact absurd hq2.symm (hk2 q hq)
    ext b
    rw [hchar (newIdFun g m w) b, Finset.mem_image]
    constructor
    · rintro ⟨hab, x, hx, y, hy, hax, rfl⟩
      have hxw : x = w := hpre x hx hax.symm
      subst hxw
      exact ⟨y, hy, rfl⟩
    · rintro ⟨y, hy, rfl⟩
      refine ⟨?_, w, hwv, y, hy, rfl, rfl⟩
      intro hc
      have hyw : y = w := hpre y (hwf.mem_of_adj hy).2 hc.symm
      subst hyw
      exact hwf.no_self y hwv hy
  · intro w z hwv hzv hk1 hk2 hk3 hk4 hfz
    have := (newIdFun_eq_iff hwf hvm hwv hzv).mp hfz
    rw [repOf_unmatched hk1, repOf_unmatched hk3] at this
    exact this
  · intro x hx
    exact ((hchar x x).mp hx).1 rfl

/-- Witness for C1: contracting the matching `[(1,2)]` on the path `1-2-3`. -/
theorem C1_contract_graph_witness :
    ∃ h, wPath3.contract_graph [(1, 2)] = Except.ok h
      ∧ h.size = wPath3.size - 1
      ∧ h.vertices = Finset.Icc 1 (wPath3.size - 1)
      ∧ h.adj (newIdFun wPath3 [(1, 2)] 2)
          = ((wPath3.adj 1 ∪ wPath3.adj 2) \ {1, 2}).image (newIdFun wPath3 [(1, 2)])
      ∧ (∀ x, x ∉ h.adj x) := by
  obtain ⟨h, hok, hs, hv, hmerge, -, -, hself⟩ :=
    C1_contract_graph wPath3 [(1, 2)] (by decide) (by decide) (by decide)
  exact ⟨h, hok, hs, hv, hmerge (1, 2) (List.mem_cons_self _ _), hself⟩
